import Mathlib

/-! # Basecoin ABCI application (`app/app.go`)

A shallow embedding of the block-lifecycle controller of `app/app.go`:
the `IAVLApp` state (chain state, store, pending validator changes, height),
the `Basecoin` wrapper holding the transaction handler, and the ABCI entry
points.  Go pointer-receiver methods become functions returning the updated
state next to their result.  The collaborators that live outside
`app/app.go` (transaction decoding, the handler, the store, the chain-state
helper) are parameters.

Conventions:
* a Go `string` and a Go `[]byte` are both lists of bytes (`nil` and the
  empty slice coincide, as they do for `len` and `bytes.Equal`);
* `uint64` is a `Nat` reduced modulo `2 ^ 64` where the program does
  arithmetic on it;
* `[]*abci.Validator` is a list of validator values: entries are non-nil
  and are not mutated through retained pointers;
* loggers are omitted, they carry no state the program reads.
-/

namespace App

/-! ## Basic types -/

/-- Go `[]byte`. -/
abbrev Bytes := List UInt8

/-- Go `string`, an immutable sequence of bytes. -/
abbrev GoString := List UInt8

/-- Byte sequence of an ASCII string literal of the source. -/
def str (s : String) : GoString := s.toList.map (fun c => UInt8.ofNat c.toNat)

/-- Source constant `ModuleNameBase = "base"`. -/
def ModuleNameBase : GoString := str "base"

/-- Source constant `ChainKey = "chain_id"`. -/
def ChainKey : GoString := str "chain_id"

/-- Width of the Go `uint64` height counter. -/
def uint64Mod : Nat := 2 ^ 64

/-! ## ABCI types (package `abci/types`) -/

/-- Type `abci.CodeType`. -/
abbrev CodeType := Nat

/-- Constant `abci.CodeType_OK`. -/
def CodeType_OK : CodeType := 0

/-- Constant `abci.CodeType_EncodingError`. -/
def CodeType_EncodingError : CodeType := 2

/-- Type `abci.Validator`. -/
structure Validator where
  PubKey : Bytes
  Power : Nat
deriving DecidableEq, Repr

/-- Type `abci.Result`. -/
structure Result where
  Code : CodeType
  Data : Bytes
  Log : GoString
deriving DecidableEq, Repr

/-- Method `abci.Result.IsErr`: the code is not `CodeType_OK`. -/
def Result.IsErr (res : Result) : Bool := res.Code != CodeType_OK

/-- Type `abci.ResponseInfo`. -/
structure ResponseInfo where
  Data : GoString
  Version : GoString
  LastBlockHeight : Nat
  LastBlockAppHash : Bytes
deriving DecidableEq, Repr

/-- Type `abci.RequestQuery`. -/
structure RequestQuery where
  Data : Bytes
  Path : GoString
  Height : Nat
  Prove : Bool
deriving DecidableEq, Repr

/-- Type `abci.ResponseQuery`. -/
structure ResponseQuery where
  Code : CodeType
  Index : Int
  Key : Bytes
  Value : Bytes
  Proof : Bytes
  Height : Nat
  Log : GoString
deriving DecidableEq, Repr

/-- Go zero value of `abci.ResponseQuery`, the initial value of a named result. -/
def ResponseQuery.zero : ResponseQuery :=
  { Code := 0, Index := 0, Key := [], Value := [], Proof := [], Height := 0, Log := [] }

/-- Type `abci.ResponseEndBlock`. -/
structure ResponseEndBlock where
  Diffs : List Validator
deriving DecidableEq, Repr

/-- Type `abci.Header`; no field of it is read by this program. -/
structure Header where
  ChainID : GoString
  Height : Nat
deriving DecidableEq, Repr

/-! ## Types of the collaborators -/

/-- Modelled from the spec: the argument bundle built by `stack.NewContext`
(package `stack`); the spec's
`CallContext` is chain id, height and a logger scope. -/
structure Context where
  chainID : GoString
  height : Nat
deriving DecidableEq, Repr

/-- Modelled from the spec: the non-error result of a handler call (package
`sdk`); the spec's `DispatchResult` carries
data, a log and the ordered validator diff, the error travelling separately as
the Go `error` return value. -/
structure DispatchResult where
  Data : Bytes
  Log : GoString
  Diff : List Validator
deriving DecidableEq, Repr

/-- The three views of the store `*Store`, as returned by `Committed()`,
`Append()` and `Check()`. -/
structure Store (DB : Type) where
  committed : DB
  append : DB
  check : DB

/-- Interface `sdk.Handler`: each entry point receives one view of the store,
may write to it, and returns a result or an error. -/
structure Handler (DB Tx Err : Type) where
  InitState : DB → GoString → GoString → GoString → Except Err GoString × DB
  DeliverTx : Context → DB → Tx → Except Err DispatchResult × DB
  CheckTx : Context → DB → Tx → Except Err DispatchResult × DB

/-- Functions called by `app/app.go` whose code lives elsewhere: `sdk.LoadTx`,
`errors.Result`, `err.Error()`, `sdk.ToABCI`, `abci.Result.Error`, the constant
`version.Version`, the methods `Info`, `Query`, `Commit` of `*Store`, and
`sm.NewChainState` with the methods `SetChainID`, `GetChainID` of
`*sm.ChainState` (whose state has type `CS`). -/
structure Deps (DB Tx Err CS : Type) where
  LoadTx : Bytes → Except Err Tx
  errorsResult : Err → Result
  errorString : Err → GoString
  ToABCI : DispatchResult → Result
  resultError : Result → GoString
  version : GoString
  storeInfo : Store DB → ResponseInfo × Store DB
  storeQuery : Store DB → RequestQuery → ResponseQuery × Store DB
  storeCommit : Store DB → Result × Store DB
  NewChainState : CS
  SetChainID : CS → DB → GoString → CS × DB
  GetChainID : CS → DB → GoString × CS

/-! ## Go library functions used by `splitKey` -/

/-- Loop of `strings.Index(s, sep)`: first position, counted from `i`, at which
`sep` occurs in `s`, or `-1`. -/
def stringsIndexFrom (sep : GoString) : GoString → Nat → Int
  | [], i => if sep = [] then (i : Int) else -1
  | c :: cs, i =>
    if sep.isPrefixOf (c :: cs) = true then (i : Int) else stringsIndexFrom sep cs (i + 1)

/-- Go `strings.Index(s, sep)`. -/
def stringsIndex (s sep : GoString) : Int := stringsIndexFrom sep s 0

/-- Go `strings.Contains(s, substr)`, which is `strings.Index(s, substr) >= 0`. -/
def stringsContains (s substr : GoString) : Bool := decide (stringsIndex s substr ≥ 0)

/-- Go `strings.SplitN(s, sep, 2)` for a non-empty `sep`: `s` cut at the first
occurrence of `sep`, or `s` alone when `sep` does not occur. -/
def stringsSplitN2 (s sep : GoString) : List GoString :=
  let m := stringsIndex s sep
  if m < 0 then [s] else [s.take m.toNat, s.drop (m.toNat + sep.length)]

/-! ## `app/app.go` -/

/-- Source `splitKey`: splits the string at the first `/`; if there is none,
the module is the default `"base"`. -/
def splitKey (key : GoString) : GoString × GoString :=
  if stringsContains key (str "/") = true then
    let keyParts := stringsSplitN2 key (str "/")
    (keyParts.getD 0 [], keyParts.getD 1 [])
  else
    (ModuleNameBase, key)

/-- Loop of `pubKeyIndex`, at list position `i`. -/
def pubKeyIndexFrom (val : Validator) : List Validator → Nat → Int
  | [], _ => -1
  | v :: rest, i => if val.PubKey = v.PubKey then (i : Int) else pubKeyIndexFrom val rest (i + 1)

/-- Source `pubKeyIndex`: index of the first entry of `list` with the same
`PubKey` as `val`, or `-1` if there is no match. -/
def pubKeyIndex (val : Validator) (list : List Validator) : Int :=
  pubKeyIndexFrom val list 0

/-- Type `IAVLApp`: chain state helper, store, pending validator changes and
height (the logger is omitted). -/
structure IAVLApp (DB CS : Type) where
  info : CS
  state : Store DB
  pending : List Validator
  height : Nat

/-- Type `Basecoin`: an `IAVLApp` (embedded by pointer in the source) and the
handler. -/
structure Basecoin (DB Tx Err CS : Type) extends IAVLApp DB CS where
  handler : Handler DB Tx Err

variable {DB Tx Err CS : Type}

/-- Source `NewIAVLApp`: `pending` is nil and `height` is zero. -/
def NewIAVLApp (d : Deps DB Tx Err CS) (store : Store DB) : IAVLApp DB CS :=
  { info := d.NewChainState, state := store, pending := [], height := 0 }

/-- Source `NewBasecoin`. -/
def NewBasecoin (d : Deps DB Tx Err CS) (handler : Handler DB Tx Err) (store : Store DB) :
    Basecoin DB Tx Err CS :=
  { toIAVLApp := NewIAVLApp d store, handler := handler }

/-- Source `IAVLApp.GetChainID`: asks the chain state helper, passing the
committed view. -/
def IAVLApp.GetChainID (d : Deps DB Tx Err CS) (app : IAVLApp DB CS) :
    GoString × IAVLApp DB CS :=
  let r := d.GetChainID app.info app.state.committed
  (r.1, { app with info := r.2 })

/-- Source `IAVLApp.Info`: caches the store's last block height in `height`. -/
def IAVLApp.Info (d : Deps DB Tx Err CS) (app : IAVLApp DB CS) :
    ResponseInfo × IAVLApp DB CS :=
  let r := d.storeInfo app.state
  let resp := r.1
  ({ Data := str "Basecoin v" ++ d.version, Version := [],
     LastBlockHeight := resp.LastBlockHeight,
     LastBlockAppHash := resp.LastBlockAppHash },
   { app with state := r.2, height := resp.LastBlockHeight })

/-- Source `IAVLApp.SetOption`. -/
def IAVLApp.SetOption (app : IAVLApp DB CS) (_key _value : GoString) :
    GoString × IAVLApp DB CS :=
  (str "Not Implemented", app)

/-- Source `IAVLApp.Query`: a request without data is answered with an
encoding error, any other request is handed to the store. -/
def IAVLApp.Query (d : Deps DB Tx Err CS) (app : IAVLApp DB CS) (reqQuery : RequestQuery) :
    ResponseQuery × IAVLApp DB CS :=
  if reqQuery.Data.length = 0 then
    ({ ResponseQuery.zero with
        Log := str "Query cannot be zero length", Code := CodeType_EncodingError }, app)
  else
    let r := d.storeQuery app.state reqQuery
    (r.1, { app with state := r.2 })

/-- Source `IAVLApp.Commit`: the store's commit result, or a panic (`Except.error`
with the panic message) when that result is an error; the second component is
the controller state when `Commit` returns or panics. -/
def IAVLApp.Commit (d : Deps DB Tx Err CS) (app : IAVLApp DB CS) :
    Except GoString Result × IAVLApp DB CS :=
  let r := d.storeCommit app.state
  let res := r.1
  if res.IsErr = true then
    (Except.error (str "Error getting hash: " ++ d.resultError res), { app with state := r.2 })
  else
    (Except.ok res, { app with state := r.2 })

/-- Source `IAVLApp.InitChain`: empty body. -/
def IAVLApp.InitChain (app : IAVLApp DB CS) (_validators : List Validator) : IAVLApp DB CS :=
  app

/-- Source `IAVLApp.BeginBlock`: `app.height++` on a `uint64`. -/
def IAVLApp.BeginBlock (app : IAVLApp DB CS) (_hash : Bytes) (_header : Header) :
    IAVLApp DB CS :=
  { app with height := (app.height + 1) % uint64Mod }

/-- Source `IAVLApp.EndBlock`: the result carries `app.pending`, which is then
set to nil. -/
def IAVLApp.EndBlock (app : IAVLApp DB CS) (_height : Nat) :
    ResponseEndBlock × IAVLApp DB CS :=
  ({ Diffs := app.pending }, { app with pending := [] })

/-- Body of the loop of `addValChange` for one change `d`. -/
def addValChangeStep (pending : List Validator) (d : Validator) : List Validator :=
  let idx := pubKeyIndex d pending
  if idx ≥ 0 then pending.set idx.toNat d else pending ++ [d]

/-- Source `IAVLApp.addValChange`. -/
def IAVLApp.addValChange (app : IAVLApp DB CS) (diffs : List Validator) : IAVLApp DB CS :=
  diffs.foldl (fun a d => { a with pending := addValChangeStep a.pending d }) app

/-- Source `Basecoin.InitState`. -/
def Basecoin.InitState (d : Deps DB Tx Err CS) (app : Basecoin DB Tx Err CS)
    (key value : GoString) : GoString × Basecoin DB Tx Err CS :=
  let parts := splitKey key
  let modName := parts.1
  let key := parts.2
  let state := app.state.append
  if modName = ModuleNameBase then
    if key = ChainKey then
      let r := d.SetChainID app.info state value
      (str "Success", { app with info := r.1, state := { app.state with append := r.2 } })
    else
      (str "Error: unknown base option: " ++ key, app)
  else
    match app.handler.InitState state modName key value with
    | (Except.ok log, db) => (log, { app with state := { app.state with append := db } })
    | (Except.error err, db) =>
      (str "Error: " ++ d.errorString err, { app with state := { app.state with append := db } })

/-- The call context `stack.NewContext(app.GetChainID(), app.height, logger)`
built by `DeliverTx` and `CheckTx`. -/
def Basecoin.newContext (d : Deps DB Tx Err CS) (app : Basecoin DB Tx Err CS) : Context :=
  { chainID := (app.toIAVLApp.GetChainID d).1, height := app.height }

/-- Source `Basecoin.DeliverTx`. -/
def Basecoin.DeliverTx (d : Deps DB Tx Err CS) (app : Basecoin DB Tx Err CS)
    (txBytes : Bytes) : Result × Basecoin DB Tx Err CS :=
  match d.LoadTx txBytes with
  | Except.error err => (d.errorsResult err, app)
  | Except.ok tx =>
    let g := app.toIAVLApp.GetChainID d
    let ctx := app.newContext d
    match app.handler.DeliverTx ctx app.state.append tx with
    | (Except.error err, db) =>
      (d.errorsResult err,
       { app with toIAVLApp := { g.2 with state := { app.state with append := db } } })
    | (Except.ok res, db) =>
      (d.ToABCI res,
       { app with toIAVLApp :=
          IAVLApp.addValChange { g.2 with state := { app.state with append := db } } res.Diff })

/-- Source `Basecoin.CheckTx`. -/
def Basecoin.CheckTx (d : Deps DB Tx Err CS) (app : Basecoin DB Tx Err CS)
    (txBytes : Bytes) : Result × Basecoin DB Tx Err CS :=
  match d.LoadTx txBytes with
  | Except.error err => (d.errorsResult err, app)
  | Except.ok tx =>
    let g := app.toIAVLApp.GetChainID d
    let ctx := app.newContext d
    match app.handler.CheckTx ctx app.state.check tx with
    | (Except.error err, db) =>
      (d.errorsResult err,
       { app with toIAVLApp := { g.2 with state := { app.state with check := db } } })
    | (Except.ok res, db) =>
      (d.ToABCI res,
       { app with toIAVLApp := { g.2 with state := { app.state with check := db } } })

/-- One ABCI request to the application. -/
inductive Call where
  | Info
  | SetOption (key value : GoString)
  | InitState (key value : GoString)
  | InitChain (validators : List Validator)
  | BeginBlock (hash : Bytes) (header : Header)
  | DeliverTx (txBytes : Bytes)
  | CheckTx (txBytes : Bytes)
  | EndBlock (height : Nat)
  | Commit
  | Query (reqQuery : RequestQuery)
deriving DecidableEq, Repr

/-- The state after serving one request; `Except.error` when `Commit` panics. -/
def Basecoin.serve (d : Deps DB Tx Err CS) (app : Basecoin DB Tx Err CS) :
    Call → Except GoString (Basecoin DB Tx Err CS)
  | Call.Info => Except.ok { app with toIAVLApp := (app.toIAVLApp.Info d).2 }
  | Call.SetOption key value =>
    Except.ok { app with toIAVLApp := (app.toIAVLApp.SetOption key value).2 }
  | Call.InitState key value => Except.ok (app.InitState d key value).2
  | Call.InitChain validators =>
    Except.ok { app with toIAVLApp := app.toIAVLApp.InitChain validators }
  | Call.BeginBlock hash header =>
    Except.ok { app with toIAVLApp := app.toIAVLApp.BeginBlock hash header }
  | Call.DeliverTx txBytes => Except.ok (app.DeliverTx d txBytes).2
  | Call.CheckTx txBytes => Except.ok (app.CheckTx d txBytes).2
  | Call.EndBlock height => Except.ok { app with toIAVLApp := (app.toIAVLApp.EndBlock height).2 }
  | Call.Commit =>
    match app.toIAVLApp.Commit d with
    | (Except.error msg, _) => Except.error msg
    | (Except.ok _, app1) => Except.ok { app with toIAVLApp := app1 }
  | Call.Query reqQuery => Except.ok { app with toIAVLApp := (app.toIAVLApp.Query d reqQuery).2 }

/-- The state after serving a sequence of requests in order, stopping at a
panic. -/
def Basecoin.serveAll (d : Deps DB Tx Err CS) :
    Basecoin DB Tx Err CS → List Call → Except GoString (Basecoin DB Tx Err CS)
  | app, [] => Except.ok app
  | app, c :: cs =>
    match app.serve d c with
    | Except.error msg => Except.error msg
    | Except.ok app1 => Basecoin.serveAll d app1 cs

/-- The state after a sequence of `CheckTx` calls, one per element of `txs`. -/
def Basecoin.checkAll (d : Deps DB Tx Err CS) (app : Basecoin DB Tx Err CS)
    (txs : List Bytes) : Basecoin DB Tx Err CS :=
  txs.foldl (fun a txBytes => (a.CheckTx d txBytes).2) app

/-! ## Auxiliary definitions for the statements -/

/-- The public keys of a list of validator changes, in order. -/
def pubKeys (l : List Validator) : List Bytes := l.map Validator.PubKey

/-- Replace the first entry of the list whose key equals that of `d`, or put
`d` at the end: a structural description of one loop iteration of
`addValChange`. -/
def upsert (d : Validator) : List Validator → List Validator
  | [] => [d]
  | v :: rest => if d.PubKey = v.PubKey then d :: rest else v :: upsert d rest

/-- The last change with public key `k` in a sequence of changes. -/
def lastChange (k : Bytes) (changes : List Validator) : Option Validator :=
  (changes.filter (fun c => decide (c.PubKey = k))).getLast?

/-- The first occurrence of every element of a list of keys, in order: the head,
then the first occurrences of the tail other than the head. -/
def firstOccurrences : List Bytes → List Bytes
  | [] => []
  | k :: rest => k :: (firstOccurrences rest).filter (fun j => decide (j ≠ k))

/-- Whether serving the request in this state reaches no merge: every request
except a `DeliverTx` whose bytes decode and whose handler call succeeds with a
non-empty `Diff`. -/
def Basecoin.mergesNothing (d : Deps DB Tx Err CS) (app : Basecoin DB Tx Err CS) :
    Call → Bool
  | Call.DeliverTx txBytes =>
    match d.LoadTx txBytes with
    | Except.error _ => true
    | Except.ok tx =>
      match app.handler.DeliverTx (app.newContext d) app.state.append tx with
      | (Except.error _, _) => true
      | (Except.ok res, _) => res.Diff.isEmpty
  | _ => true

/-- Whether no request of the sequence, served in order from this state, reaches
a merge. -/
def Basecoin.noMerge (d : Deps DB Tx Err CS) :
    Basecoin DB Tx Err CS → List Call → Bool
  | _, [] => true
  | app, c :: cs =>
    app.mergesNothing d c &&
      (match app.serve d c with
       | Except.error _ => true
       | Except.ok app1 => Basecoin.noMerge d app1 cs)

/-! ## The chain-state helper as the spec describes it -/

/-- Modelled from the spec: method `SetChainID` of `*sm.ChainState` (package
`state`). The spec's `ChainIdentity` has the field `chainID` and "stores and
exposes" the identifier "once bound"; its `bind(view, value)` "writes the chain
id into the given store view". The helper's state is the field: binding keeps
the value in the field and writes it to the view; `write` is the view's
chain-id slot. -/
def cachingSetChainID (write : DB → GoString → DB) (_chainID : GoString) (view : DB)
    (value : GoString) : GoString × DB :=
  (value, write view value)

/-- Modelled from the spec: method `GetChainID` of `*sm.ChainState` (package
`state`). The spec's `ChainIdentity.get(view)` exposes the bound identifier and
otherwise "reads chain id from the committed view", the empty string meaning
unset: a non-empty field is the answer, an empty field is filled from the view
the caller passes; `read` is the view's chain-id slot. -/
def cachingGetChainID (read : DB → GoString) (chainID : GoString) (view : DB) :
    GoString × GoString :=
  if chainID ≠ [] then (chainID, chainID) else (read view, read view)

/-! ## Concrete collaborators, used to instantiate the theorems -/

/-- A decoder, store and chain-state helper over a store whose views are
counters: every non-empty byte string decodes to itself, commit promotes the
append view, the chain id is kept in the helper. -/
def demoDeps : Deps Nat Bytes GoString GoString :=
  { LoadTx := fun b => if b = [] then Except.error (str "empty tx") else Except.ok b
    errorsResult := fun e => { Code := 1, Data := [], Log := e }
    errorString := fun e => e
    ToABCI := fun r => { Code := CodeType_OK, Data := r.Data, Log := r.Log }
    resultError := fun r => r.Log
    version := str "0.7.0"
    storeInfo := fun s =>
      ({ Data := [], Version := [], LastBlockHeight := s.committed, LastBlockAppHash := [] }, s)
    storeQuery := fun s req => ({ ResponseQuery.zero with Value := req.Data }, s)
    storeCommit := fun s =>
      ({ Code := CodeType_OK, Data := [], Log := [] },
       { committed := s.append, append := s.append, check := s.append })
    NewChainState := []
    SetChainID := fun _ db v => (v, db + 1)
    GetChainID := fun cs _ => (cs, cs) }

/-- Reads a byte string `k1 p1 k2 p2 ...` as the validator changes "key `[k1]`
gets power `p1`", and so on; a byte string of odd length has no reading. -/
def demoDiff : Bytes → Option (List Validator)
  | [] => some []
  | [_] => none
  | k :: p :: rest => (demoDiff rest).map (fun l => { PubKey := [k], Power := p.toNat } :: l)

/-- A handler whose transactions are byte strings read by `demoDiff`: it answers
with that diff, or with an error when there is no reading, and counts the
accepted calls in the view it is given. -/
def demoHandler : Handler Nat Bytes GoString :=
  { InitState := fun db _ _ value => (Except.ok value, db + 1)
    DeliverTx := fun _ db tx =>
      match demoDiff tx with
      | some diff => (Except.ok { Data := [], Log := [], Diff := diff }, db + 1)
      | none => (Except.error (str "bad tx"), db)
    CheckTx := fun _ db tx =>
      match demoDiff tx with
      | some diff => (Except.ok { Data := [], Log := [], Diff := diff }, db + 1)
      | none => (Except.error (str "bad tx"), db) }

/-- A store whose three views are the counter `0`. -/
def demoStore : Store Nat := { committed := 0, append := 0, check := 0 }

/-- The application built from the concrete collaborators. -/
def demoApp : Basecoin Nat Bytes GoString GoString := NewBasecoin demoDeps demoHandler demoStore

/-- The handler `demoHandler`, except that `InitState` rejects an empty value. -/
def demoStrictHandler : Handler Nat Bytes GoString :=
  { demoHandler with
    InitState := fun db _ _ value =>
      if value = [] then (Except.error (str "empty value"), db) else (Except.ok value, db + 1) }

/-- The collaborators `demoDeps`, except that the store's commit fails. -/
def demoFailingDeps : Deps Nat Bytes GoString GoString :=
  { demoDeps with
    storeCommit := fun s => ({ Code := 1, Data := [], Log := str "disk full" }, s) }

/-- Collaborators over a store whose views hold just the chain id, with the
chain-state helper of the spec: commit promotes the append view. -/
def chainDeps : Deps GoString Bytes GoString GoString :=
  { LoadTx := fun b => if b = [] then Except.error (str "empty tx") else Except.ok b
    errorsResult := fun e => { Code := 1, Data := [], Log := e }
    errorString := fun e => e
    ToABCI := fun r => { Code := CodeType_OK, Data := r.Data, Log := r.Log }
    resultError := fun r => r.Log
    version := str "0.7.0"
    storeInfo := fun s =>
      ({ Data := [], Version := [], LastBlockHeight := 0, LastBlockAppHash := s.committed }, s)
    storeQuery := fun s _ => ({ ResponseQuery.zero with Value := s.committed }, s)
    storeCommit := fun s =>
      ({ Code := CodeType_OK, Data := [], Log := [] },
       { committed := s.append, append := s.append, check := s.append })
    NewChainState := []
    SetChainID := cachingSetChainID (fun _ v => v)
    GetChainID := cachingGetChainID (fun db => db) }

/-- A handler over the same store that accepts every call and writes nothing. -/
def chainHandler : Handler GoString Bytes GoString :=
  { InitState := fun db _ _ value => (Except.ok value, db)
    DeliverTx := fun _ db tx => (Except.ok { Data := tx, Log := [], Diff := [] }, db)
    CheckTx := fun _ db tx => (Except.ok { Data := tx, Log := [], Diff := [] }, db) }

/-- An application over that store: chain id `"old"` committed, `"new"` appended. -/
def chainApp : Basecoin GoString Bytes GoString GoString :=
  NewBasecoin chainDeps chainHandler
    { committed := str "old", append := str "new", check := str "old" }

/-! # Theorems -/

/-! ## Lemmas on `pubKeyIndex` and `addValChange` -/

theorem pubKeyIndexFrom_shift (d : Validator) (l : List Validator) (i : Nat) :
    pubKeyIndexFrom d l i =
      if pubKeyIndexFrom d l 0 < 0 then -1 else pubKeyIndexFrom d l 0 + i := by
  induction l generalizing i with
  | nil => simp [pubKeyIndexFrom]
  | cons v rest ih =>
    by_cases h : d.PubKey = v.PubKey
    · simp [pubKeyIndexFrom, h]
    · simp only [pubKeyIndexFrom, h, if_false]
      rw [ih (i + 1), ih (0 + 1)]
      split_ifs <;> omega

theorem pubKeyIndexFrom_ge (d : Validator) (l : List Validator) (i : Nat) :
    -1 ≤ pubKeyIndexFrom d l i := by
  induction l generalizing i with
  | nil => simp [pubKeyIndexFrom]
  | cons v rest ih =>
    by_cases h : d.PubKey = v.PubKey
    · simp [pubKeyIndexFrom, h]; omega
    · simp only [pubKeyIndexFrom, h, if_false]
      exact ih (i + 1)

theorem addValChangeStep_eq_upsert (p : List Validator) (d : Validator) :
    addValChangeStep p d = upsert d p := by
  induction p with
  | nil => simp [addValChangeStep, pubKeyIndex, pubKeyIndexFrom, upsert]
  | cons v rest ih =>
    by_cases h : d.PubKey = v.PubKey
    · simp [addValChangeStep, pubKeyIndex, pubKeyIndexFrom, upsert, h]
    · have hge := pubKeyIndexFrom_ge d rest 0
      simp only [addValChangeStep, pubKeyIndex, pubKeyIndexFrom, upsert, h, if_false] at ih ⊢
      rw [pubKeyIndexFrom_shift d rest (0 + 1)]
      by_cases hneg : pubKeyIndexFrom d rest 0 < 0
      · have h1 : ¬ (pubKeyIndexFrom d rest 0 ≥ 0) := by omega
        simp only [hneg, h1, if_true, if_false] at ih ⊢
        simp [← ih]
      · have h1 : pubKeyIndexFrom d rest 0 ≥ 0 := by omega
        have h2 : pubKeyIndexFrom d rest 0 + ((0 + 1 : Nat) : Int) ≥ 0 := by omega
        have h3 : (pubKeyIndexFrom d rest 0 + ((0 + 1 : Nat) : Int)).toNat
            = (pubKeyIndexFrom d rest 0).toNat + 1 := by omega
        simp only [hneg, h1, h2, h3, if_true, if_false, List.set_cons_succ] at ih ⊢
        rw [ih]

theorem mem_upsert_self (d : Validator) (p : List Validator) : d ∈ upsert d p := by
  induction p with
  | nil => simp [upsert]
  | cons v rest ih =>
    by_cases h : d.PubKey = v.PubKey
    · simp [upsert, h]
    · simp [upsert, h, ih]

theorem mem_upsert_of_ne (d e : Validator) (p : List Validator) (he : e ∈ p)
    (hne : e.PubKey ≠ d.PubKey) : e ∈ upsert d p := by
  induction p with
  | nil => simp at he
  | cons v rest ih =>
    by_cases h : d.PubKey = v.PubKey
    · simp only [upsert, h, if_true]
      rcases List.mem_cons.mp he with rfl | hr
      · exact absurd h.symm hne
      · exact List.mem_cons_of_mem _ hr
    · simp only [upsert, h, if_false]
      rcases List.mem_cons.mp he with rfl | hr
      · exact List.mem_cons_self _ _
      · exact List.mem_cons_of_mem _ (ih hr)

theorem pubKeys_upsert (d : Validator) (p : List Validator) :
    pubKeys (upsert d p) =
      if d.PubKey ∈ pubKeys p then pubKeys p else pubKeys p ++ [d.PubKey] := by
  induction p with
  | nil => simp [upsert, pubKeys]
  | cons v rest ih =>
    by_cases h : d.PubKey = v.PubKey
    · simp [upsert, pubKeys, h]
    · simp only [pubKeys] at ih
      simp only [upsert, h, if_false, pubKeys, List.map_cons, List.mem_cons, false_or, ih]
      split_ifs <;> simp

theorem nodup_pubKeys_upsert (d : Validator) (p : List Validator)
    (hp : (pubKeys p).Nodup) : (pubKeys (upsert d p)).Nodup := by
  rw [pubKeys_upsert]
  split_ifs with h
  · exact hp
  · exact List.Nodup.append hp (List.nodup_singleton _) (by simpa using h)

theorem nodup_pubKeys_foldl (diffs p : List Validator) (hp : (pubKeys p).Nodup) :
    (pubKeys (diffs.foldl addValChangeStep p)).Nodup := by
  induction diffs generalizing p with
  | nil => simpa using hp
  | cons d rest ih =>
    simp only [List.foldl_cons]
    apply ih
    rw [addValChangeStep_eq_upsert]
    exact nodup_pubKeys_upsert d p hp

theorem addValChange_pending (app : IAVLApp DB CS) (diffs : List Validator) :
    (app.addValChange diffs).pending = diffs.foldl addValChangeStep app.pending := by
  unfold IAVLApp.addValChange
  induction diffs generalizing app with
  | nil => rfl
  | cons d rest ih => simp only [List.foldl_cons]; rw [ih]

theorem addValChange_height (app : IAVLApp DB CS) (diffs : List Validator) :
    (app.addValChange diffs).height = app.height := by
  unfold IAVLApp.addValChange
  induction diffs generalizing app with
  | nil => rfl
  | cons d rest ih => simp only [List.foldl_cons]; rw [ih]

theorem addValChange_state (app : IAVLApp DB CS) (diffs : List Validator) :
    (app.addValChange diffs).state = app.state ∧ (app.addValChange diffs).info = app.info := by
  unfold IAVLApp.addValChange
  induction diffs generalizing app with
  | nil => exact ⟨rfl, rfl⟩
  | cons d rest ih => simp only [List.foldl_cons]; rw [(ih _).1, (ih _).2]; exact ⟨rfl, rfl⟩

theorem foldl_addValChange_pending (batches : List (List Validator)) (app : IAVLApp DB CS) :
    (batches.foldl IAVLApp.addValChange app).pending
      = batches.flatten.foldl addValChangeStep app.pending := by
  induction batches generalizing app with
  | nil => rfl
  | cons b rest ih =>
    simp only [List.foldl_cons, List.flatten_cons, List.foldl_append]
    rw [ih, addValChange_pending]

theorem lastChange_append_singleton (k : Bytes) (ds : List Validator) (d : Validator) :
    lastChange k (ds ++ [d]) = if d.PubKey = k then some d else lastChange k ds := by
  unfold lastChange
  by_cases h : d.PubKey = k
  · simp [List.filter_append, h]
  · simp [List.filter_append, h]

theorem lastChange_mem_foldl (ds p : List Validator) (k : Bytes) (hk : k ∈ pubKeys ds) :
    ∃ c, lastChange k ds = some c ∧ c.PubKey = k ∧ c ∈ ds.foldl addValChangeStep p := by
  induction ds using List.reverseRecOn with
  | nil => simp [pubKeys] at hk
  | append_singleton ds d ih =>
    rw [lastChange_append_singleton, List.foldl_append]
    simp only [List.foldl_cons, List.foldl_nil, addValChangeStep_eq_upsert]
    by_cases h : d.PubKey = k
    · exact ⟨d, by simp [h], h, mem_upsert_self _ _⟩
    · have hk2 : k ∈ pubKeys ds := by
        simp only [pubKeys, List.map_append, List.mem_append, List.map_cons, List.map_nil,
          List.mem_singleton] at hk ⊢
        rcases hk with hk | hk
        · exact hk
        · exact absurd hk.symm h
      obtain ⟨c, hc, hck, hmem⟩ := ih hk2
      refine ⟨c, by simp [h, hc], hck, mem_upsert_of_ne _ _ _ hmem ?_⟩
      rw [hck]; exact fun e => h e.symm

theorem DeliverTx_pending_cases (d : Deps DB Tx Err CS) (app : Basecoin DB Tx Err CS)
    (txBytes : Bytes) :
    (app.DeliverTx d txBytes).2.pending = app.pending ∨
      ∃ diffs : List Validator, (app.DeliverTx d txBytes).2.pending = diffs.foldl addValChangeStep app.pending := by
  unfold Basecoin.DeliverTx
  cases hl : d.LoadTx txBytes with
  | error err => exact Or.inl rfl
  | ok tx =>
    simp only
    split
    · exact Or.inl rfl
    · rename_i res db _
      refine Or.inr ⟨res.Diff, ?_⟩
      simp only [addValChange_pending]
      rfl

theorem CheckTx_pending_height (d : Deps DB Tx Err CS) (app : Basecoin DB Tx Err CS)
    (txBytes : Bytes) :
    (app.CheckTx d txBytes).2.pending = app.pending ∧
      (app.CheckTx d txBytes).2.height = app.height := by
  unfold Basecoin.CheckTx
  cases hl : d.LoadTx txBytes with
  | error err => exact ⟨rfl, rfl⟩
  | ok tx =>
    simp only
    split
    · exact ⟨rfl, rfl⟩
    · exact ⟨rfl, rfl⟩

theorem InitState_pending_height (d : Deps DB Tx Err CS) (app : Basecoin DB Tx Err CS)
    (key value : GoString) :
    (app.InitState d key value).2.pending = app.pending ∧
      (app.InitState d key value).2.height = app.height := by
  unfold Basecoin.InitState
  simp only
  split_ifs
  · exact ⟨rfl, rfl⟩
  · exact ⟨rfl, rfl⟩
  · rcases hh : app.handler.InitState app.state.append (splitKey key).1 (splitKey key).2 value
      with ⟨r, db⟩
    cases r with
    | error err => exact ⟨rfl, rfl⟩
    | ok log => exact ⟨rfl, rfl⟩

theorem Query_pending_height (d : Deps DB Tx Err CS) (app : IAVLApp DB CS)
    (reqQuery : RequestQuery) :
    (app.Query d reqQuery).2.pending = app.pending ∧
      (app.Query d reqQuery).2.height = app.height := by
  unfold IAVLApp.Query
  split_ifs
  · exact ⟨rfl, rfl⟩
  · exact ⟨rfl, rfl⟩

theorem Commit_pending_height (d : Deps DB Tx Err CS) (app : IAVLApp DB CS) :
    (app.Commit d).2.pending = app.pending ∧ (app.Commit d).2.height = app.height := by
  unfold IAVLApp.Commit
  simp only
  split_ifs
  · exact ⟨rfl, rfl⟩
  · exact ⟨rfl, rfl⟩

theorem serve_nodup (d : Deps DB Tx Err CS) (app app1 : Basecoin DB Tx Err CS) (c : Call)
    (hp : (pubKeys app.pending).Nodup) (h : app.serve d c = Except.ok app1) :
    (pubKeys app1.pending).Nodup := by
  cases c with
  | Info => cases h; exact hp
  | SetOption key value => cases h; exact hp
  | InitState key value =>
    cases h; rw [(InitState_pending_height d app key value).1]; exact hp
  | InitChain validators => cases h; exact hp
  | BeginBlock hash header => cases h; exact hp
  | DeliverTx txBytes =>
    cases h
    rcases DeliverTx_pending_cases d app txBytes with he | ⟨diffs, he⟩
    · rw [he]; exact hp
    · rw [he]; exact nodup_pubKeys_foldl diffs _ hp
  | CheckTx txBytes =>
    cases h; rw [(CheckTx_pending_height d app txBytes).1]; exact hp
  | EndBlock height => cases h; exact List.nodup_nil
  | Commit =>
    simp only [Basecoin.serve] at h
    have hc := Commit_pending_height d app.toIAVLApp
    rcases hr : app.toIAVLApp.Commit d with ⟨res, app2⟩
    rw [hr] at h hc
    cases res with
    | error msg => cases h
    | ok r =>
      cases h
      show (pubKeys app2.pending).Nodup
      rw [hc.1]; exact hp
  | Query reqQuery =>
    cases h
    show (pubKeys (app.toIAVLApp.Query d reqQuery).2.pending).Nodup
    rw [(Query_pending_height d app.toIAVLApp reqQuery).1]; exact hp

theorem serveAll_nodup (d : Deps DB Tx Err CS) (calls : List Call)
    (app app1 : Basecoin DB Tx Err CS)
    (hp : (pubKeys app.pending).Nodup) (h : Basecoin.serveAll d app calls = Except.ok app1) :
    (pubKeys app1.pending).Nodup := by
  induction calls generalizing app with
  | nil => simp only [Basecoin.serveAll] at h; cases h; exact hp
  | cons c cs ih =>
    simp only [Basecoin.serveAll] at h
    cases hs : app.serve d c with
    | error msg => rw [hs] at h; cases h
    | ok app2 =>
      rw [hs] at h
      exact ih app2 (serve_nodup d app app2 c hp hs) h

/-- C1 (last write per key wins): after merging any sequence of batches with
`addValChange` into an empty pending list, for every public key `k` occurring
in the batches there is a last merged change `c` with key `k`, the list
returned by the next `EndBlock` contains an entry with key `k` and the power of
`c`, and every entry of that list with key `k` has that power. -/
theorem last_write_per_key_wins (app : IAVLApp DB CS) (hempty : app.pending = [])
    (batches : List (List Validator)) (height : Nat) (k : Bytes)
    (hk : k ∈ pubKeys batches.flatten) :
    ∃ c, lastChange k batches.flatten = some c ∧
      (∃ e ∈ ((batches.foldl IAVLApp.addValChange app).EndBlock height).1.Diffs,
        e.PubKey = k ∧ e.Power = c.Power) ∧
      (∀ e ∈ ((batches.foldl IAVLApp.addValChange app).EndBlock height).1.Diffs,
        e.PubKey = k → e.Power = c.Power) := by
  obtain ⟨c, hc, hck, hmem⟩ := lastChange_mem_foldl batches.flatten app.pending k hk
  have hnd : (pubKeys (batches.flatten.foldl addValChangeStep app.pending)).Nodup :=
    nodup_pubKeys_foldl _ _ (by rw [hempty]; exact List.nodup_nil)
  have hd : ((batches.foldl IAVLApp.addValChange app).EndBlock height).1.Diffs
      = batches.flatten.foldl addValChangeStep app.pending := foldl_addValChange_pending _ _
  rw [hd]
  refine ⟨c, hc, ⟨c, hmem, hck, rfl⟩, ?_⟩
  intro e he hek
  have := List.inj_on_of_nodup_map hnd he hmem (hek.trans hck.symm)
  rw [this]

/-- Instance of C1: batches `[(1,5),(2,3)]` and `[(1,9),(3,4)]`, key `[1]`. -/
theorem last_write_per_key_wins_witness :
    (demoApp.toIAVLApp.pending = [] ∧
      ([1] : Bytes) ∈ pubKeys (List.flatten [[⟨[1], 5⟩, ⟨[2], 3⟩], [⟨[1], 9⟩, ⟨[3], 4⟩]])) ∧
    ∃ c, lastChange [1] (List.flatten [[⟨[1], 5⟩, ⟨[2], 3⟩], [⟨[1], 9⟩, ⟨[3], 4⟩]]) = some c ∧
      (∃ e ∈ ((List.foldl IAVLApp.addValChange demoApp.toIAVLApp
          [[⟨[1], 5⟩, ⟨[2], 3⟩], [⟨[1], 9⟩, ⟨[3], 4⟩]]).EndBlock 1).1.Diffs,
        e.PubKey = [1] ∧ e.Power = c.Power) ∧
      (∀ e ∈ ((List.foldl IAVLApp.addValChange demoApp.toIAVLApp
          [[⟨[1], 5⟩, ⟨[2], 3⟩], [⟨[1], 9⟩, ⟨[3], 4⟩]]).EndBlock 1).1.Diffs,
        e.PubKey = [1] → e.Power = c.Power) :=
  ⟨⟨rfl, by decide⟩,
    last_write_per_key_wins demoApp.toIAVLApp rfl [[⟨[1], 5⟩, ⟨[2], 3⟩], [⟨[1], 9⟩, ⟨[3], 4⟩]] 1 [1]
      (by decide)⟩

/-- C2 (at most one entry per public key): in every state reached from a
freshly constructed application by any sequence of requests, for any decoder,
store and handler, the public keys of the pending list are pairwise distinct. -/
theorem pending_keys_distinct_when_reachable (d : Deps DB Tx Err CS)
    (handler : Handler DB Tx Err) (store : Store DB) (calls : List Call)
    (app : Basecoin DB Tx Err CS)
    (hreach : Basecoin.serveAll d (NewBasecoin d handler store) calls = Except.ok app) :
    (pubKeys app.pending).Nodup :=
  serveAll_nodup d calls (NewBasecoin d handler store) app List.nodup_nil hreach


/-- Instance of C2: a block with a diff that repeats key `[1]`, two more changes,
a rejected transaction and a commit. -/
theorem pending_keys_distinct_when_reachable_witness :
    Basecoin.serveAll demoDeps (NewBasecoin demoDeps demoHandler demoStore)
        [Call.BeginBlock [] ⟨[], 0⟩, Call.DeliverTx [1, 5, 1, 6, 2, 2], Call.DeliverTx [2, 5],
          Call.DeliverTx [1, 7], Call.DeliverTx [1], Call.Commit]
      = Except.ok ⟨⟨[], ⟨3, 3, 3⟩, [⟨[1], 7⟩, ⟨[2], 5⟩], 1⟩, demoHandler⟩ ∧
    (pubKeys (⟨⟨[], ⟨3, 3, 3⟩, [⟨[1], 7⟩, ⟨[2], 5⟩], 1⟩, demoHandler⟩ :
      Basecoin Nat Bytes GoString GoString).pending).Nodup :=
  ⟨rfl, pending_keys_distinct_when_reachable demoDeps demoHandler demoStore
    [Call.BeginBlock [] ⟨[], 0⟩, Call.DeliverTx [1, 5, 1, 6, 2, 2], Call.DeliverTx [2, 5],
      Call.DeliverTx [1, 7], Call.DeliverTx [1], Call.Commit]
    ⟨⟨[], ⟨3, 3, 3⟩, [⟨[1], 7⟩, ⟨[2], 5⟩], 1⟩, demoHandler⟩ rfl⟩

/-! ## `splitKey` -/

theorem str_slash : str "/" = [47] := by decide

theorem slash_isPrefixOf (c : UInt8) (cs : GoString) :
    (List.isPrefixOf ([47] : GoString) (c :: cs) = true) ↔ c = 47 := by
  simp only [List.isPrefixOf, Bool.and_true, beq_iff_eq]
  exact eq_comm

theorem stringsIndexFrom_shift (s : GoString) (i : Nat) :
    stringsIndexFrom [47] s i =
      if stringsIndexFrom [47] s 0 < 0 then -1 else stringsIndexFrom [47] s 0 + i := by
  induction s generalizing i with
  | nil => simp [stringsIndexFrom]
  | cons c cs ih =>
    by_cases h : c = 47
    · simp [stringsIndexFrom, h]
    · have hp : ¬ (List.isPrefixOf ([47] : GoString) (c :: cs) = true) :=
        fun hc => h ((slash_isPrefixOf c cs).mp hc)
      simp only [stringsIndexFrom, hp, if_false]
      rw [ih (i + 1), ih (0 + 1)]
      split_ifs <;> omega

theorem stringsIndex_absent (s : GoString) (h : (47 : UInt8) ∉ s) :
    stringsIndex s [47] = -1 := by
  unfold stringsIndex
  induction s with
  | nil => simp [stringsIndexFrom]
  | cons c cs ih =>
    have hc : c ≠ 47 := fun e => h (by simp [e])
    have hcs : (47 : UInt8) ∉ cs := fun e => h (List.mem_cons_of_mem _ e)
    have hp : ¬ (List.isPrefixOf ([47] : GoString) (c :: cs) = true) :=
      fun hq => hc ((slash_isPrefixOf c cs).mp hq)
    simp only [stringsIndexFrom, hp, if_false]
    rw [stringsIndexFrom_shift cs (0 + 1), ih hcs]
    simp

theorem stringsIndex_present (s : GoString) (h : (47 : UInt8) ∈ s) :
    ∃ m : Nat, stringsIndex s [47] = (m : Int) ∧ (47 : UInt8) ∉ s.take m ∧
      s.take m ++ [47] ++ s.drop (m + 1) = s := by
  unfold stringsIndex
  induction s with
  | nil => simp at h
  | cons c cs ih =>
    by_cases hc : c = 47
    · refine ⟨0, ?_, by simp, by simp [hc]⟩
      simp [stringsIndexFrom, hc]
    · have hp : ¬ (List.isPrefixOf ([47] : GoString) (c :: cs) = true) :=
        fun hq => hc ((slash_isPrefixOf c cs).mp hq)
      have hcs : (47 : UInt8) ∈ cs := by
        rcases List.mem_cons.mp h with e | e
        · exact absurd e.symm hc
        · exact e
      obtain ⟨m, hm, hno, hsplit⟩ := ih hcs
      refine ⟨m + 1, ?_, ?_, ?_⟩
      · simp only [stringsIndexFrom, hp, if_false]
        rw [stringsIndexFrom_shift cs (0 + 1), hm]
        have : ¬ ((m : Int) < 0) := by omega
        simp [this]
      · simp only [List.take_succ_cons, List.mem_cons, not_or]
        exact ⟨fun e => hc e.symm, hno⟩
      · simp only [List.take_succ_cons, List.drop_succ_cons, List.cons_append]
        rw [hsplit]

/-- C3 (`splitKey` splits at the first `/`, byte 47): for every key containing
a `/`, the module returned by `splitKey` contains no `/` and module, `"/"` and
rest concatenate to the key; in particular `"base/chain_id"` gives
`("base", "chain_id")`, `"oracle/price"` gives `("oracle", "price")`, and in
`"a/b/c"` the second `/` stays in the rest. -/
theorem splitKey_splits_at_first_slash (key : GoString) (hslash : (47 : UInt8) ∈ key) :
    ((47 : UInt8) ∉ (splitKey key).1 ∧
      stringsContains (splitKey key).1 (str "/") = false ∧
      (splitKey key).1 ++ str "/" ++ (splitKey key).2 = key) ∧
    splitKey (str "base/chain_id") = (str "base", str "chain_id") ∧
    splitKey (str "oracle/price") = (str "oracle", str "price") ∧
    splitKey (str "a/b/c") = (str "a", str "b/c") := by
  refine ⟨?_, by decide, by decide, by decide⟩
  obtain ⟨m, hm, hno, hsplit⟩ := stringsIndex_present key hslash
  have h1 : stringsContains key [47] = true := by
    simp [stringsContains, hm]
  have h2 : ¬ ((m : Int) < 0) := by omega
  have hs : splitKey key = (key.take m, key.drop (m + 1)) := by
    simp [splitKey, h1, stringsSplitN2, str_slash, hm, h2]
  rw [hs]
  refine ⟨hno, ?_, ?_⟩
  · simp [stringsContains, str_slash, stringsIndex_absent _ hno]
  · rw [str_slash]; exact hsplit

/-- Instance of C3 at the key `"staking/validator/power"`. -/
theorem splitKey_splits_at_first_slash_witness :
    (47 : UInt8) ∈ str "staking/validator/power" ∧
    (((47 : UInt8) ∉ (splitKey (str "staking/validator/power")).1 ∧
      stringsContains (splitKey (str "staking/validator/power")).1 (str "/") = false ∧
      (splitKey (str "staking/validator/power")).1 ++ str "/" ++
        (splitKey (str "staking/validator/power")).2 = str "staking/validator/power") ∧
    splitKey (str "base/chain_id") = (str "base", str "chain_id") ∧
    splitKey (str "oracle/price") = (str "oracle", str "price") ∧
    splitKey (str "a/b/c") = (str "a", str "b/c")) :=
  ⟨by decide, splitKey_splits_at_first_slash (str "staking/validator/power") (by decide)⟩

/-- C4 (default module): for every key containing no `/` (byte 47), `splitKey`
returns the module `"base"` and the key unchanged; in particular `"chain_id"`
gives `("base", "chain_id")`. -/
theorem splitKey_default_module (key : GoString) (hnone : (47 : UInt8) ∉ key) :
    splitKey key = (str "base", key) ∧
    splitKey (str "chain_id") = (str "base", str "chain_id") := by
  refine ⟨?_, by decide⟩
  have h1 : stringsContains key [47] = false := by
    simp [stringsContains, stringsIndex_absent _ hnone]
  simp [splitKey, str_slash, h1, ModuleNameBase]

/-- Instance of C4 at the key `"chain_id"`. -/
theorem splitKey_default_module_witness :
    (47 : UInt8) ∉ str "chain_id" ∧
    (splitKey (str "chain_id") = (str "base", str "chain_id") ∧
      splitKey (str "chain_id") = (str "base", str "chain_id")) :=
  ⟨by decide, splitKey_default_module (str "chain_id") (by decide)⟩

/-! ## Block lifecycle -/

/-- C5 fails at the largest `uint64`: after `Info` has cached a last block
height of `2 ^ 64 - 1` reported by the store, `BeginBlock` sets the height to
`0`, which is not the height before plus 1. -/
theorem beginBlock_wraps_at_max_height :
    ((IAVLApp.Info demoDeps
        (NewIAVLApp demoDeps { committed := 2 ^ 64 - 1, append := 0, check := 0 })).2).height
      = 2 ^ 64 - 1 ∧
    (((IAVLApp.Info demoDeps
        (NewIAVLApp demoDeps { committed := 2 ^ 64 - 1, append := 0, check := 0 })).2).BeginBlock
        [] ⟨[], 0⟩).height = 0 ∧
    (((IAVLApp.Info demoDeps
        (NewIAVLApp demoDeps { committed := 2 ^ 64 - 1, append := 0, check := 0 })).2).BeginBlock
        [] ⟨[], 0⟩).height ≠
      ((IAVLApp.Info demoDeps
        (NewIAVLApp demoDeps { committed := 2 ^ 64 - 1, append := 0, check := 0 })).2).height
        + 1 := by
  decide

/-- C5 (amended): for every controller state whose height is below
`2 ^ 64 - 1`, the height after `BeginBlock` is the height before plus 1, and
`BeginBlock` leaves the pending validator list unchanged. -/
theorem beginBlock_increments_height (app : IAVLApp DB CS) (hash : Bytes) (header : Header)
    (hbelow : app.height < 2 ^ 64 - 1) :
    (app.BeginBlock hash header).height = app.height + 1 ∧
      (app.BeginBlock hash header).pending = app.pending := by
  refine ⟨?_, rfl⟩
  show (app.height + 1) % uint64Mod = app.height + 1
  apply Nat.mod_eq_of_lt
  unfold uint64Mod
  omega

/-- Instance of C5 (amended) at height `0` with one pending change. -/
theorem beginBlock_increments_height_witness :
    (demoApp.toIAVLApp.addValChange [⟨[1], 5⟩]).height < 2 ^ 64 - 1 ∧
    (((demoApp.toIAVLApp.addValChange [⟨[1], 5⟩]).BeginBlock [] ⟨[], 0⟩).height
        = (demoApp.toIAVLApp.addValChange [⟨[1], 5⟩]).height + 1 ∧
      ((demoApp.toIAVLApp.addValChange [⟨[1], 5⟩]).BeginBlock [] ⟨[], 0⟩).pending
        = (demoApp.toIAVLApp.addValChange [⟨[1], 5⟩]).pending) :=
  ⟨by decide, beginBlock_increments_height _ [] ⟨[], 0⟩ (by decide)⟩

/-- C6 (`EndBlock` drains): for every state and height argument, `EndBlock`
returns exactly the pending list as its `Diffs`, leaves the pending list empty
and leaves the height unchanged. -/
theorem endBlock_drains_pending (app : IAVLApp DB CS) (height : Nat) :
    (app.EndBlock height).1.Diffs = app.pending ∧
      (app.EndBlock height).2.pending = [] ∧
      (app.EndBlock height).2.height = app.height :=
  ⟨rfl, rfl, rfl⟩

/-! ## Transaction dispatch and queries -/

theorem DeliverTx_of_ok (d : Deps DB Tx Err CS) (app : Basecoin DB Tx Err CS)
    (txBytes : Bytes) (tx : Tx) (res : DispatchResult) (db : DB)
    (hload : d.LoadTx txBytes = Except.ok tx)
    (hres : app.handler.DeliverTx (app.newContext d) app.state.append tx = (Except.ok res, db)) :
    (app.DeliverTx d txBytes).1 = d.ToABCI res ∧
      (app.DeliverTx d txBytes).2.pending = res.Diff.foldl addValChangeStep app.pending ∧
      (app.DeliverTx d txBytes).2.height = app.height := by
  unfold Basecoin.DeliverTx
  simp only [hload, hres, addValChange_pending, addValChange_height]
  exact ⟨trivial, rfl, rfl⟩

theorem DeliverTx_of_handler_error (d : Deps DB Tx Err CS) (app : Basecoin DB Tx Err CS)
    (txBytes : Bytes) (tx : Tx) (err : Err) (db : DB)
    (hload : d.LoadTx txBytes = Except.ok tx)
    (hres : app.handler.DeliverTx (app.newContext d) app.state.append tx
      = (Except.error err, db)) :
    (app.DeliverTx d txBytes).1 = d.errorsResult err ∧
      (app.DeliverTx d txBytes).2.pending = app.pending ∧
      (app.DeliverTx d txBytes).2.height = app.height := by
  unfold Basecoin.DeliverTx
  simp only [hload, hres]
  exact ⟨trivial, rfl, rfl⟩

theorem DeliverTx_of_decode_error (d : Deps DB Tx Err CS) (app : Basecoin DB Tx Err CS)
    (txBytes : Bytes) (err : Err) (hload : d.LoadTx txBytes = Except.error err) :
    app.DeliverTx d txBytes = (d.errorsResult err, app) := by
  unfold Basecoin.DeliverTx
  simp only [hload]

theorem addValChangeStep_same_key (a b : Validator) (h : a.PubKey = b.PubKey) :
    addValChangeStep (addValChangeStep [] a) b = [b] := by
  simp [addValChangeStep_eq_upsert, upsert, h]

/-- C7 (`DeliverTx` success path): when the bytes decode to `tx` and the handler
returns `res` without error, `DeliverTx` returns `ToABCI res` and the pending
list afterwards is that of `addValChange res.Diff`; and if the pending list was
empty, `res.Diff` is `[(pubkeyA, 5)]` and a second successful `DeliverTx` has
diff `[(pubkeyA, 9)]`, the following `EndBlock` returns exactly
`[(pubkeyA, 9)]`. -/
theorem deliverTx_success_merges_diff (d : Deps DB Tx Err CS) (app : Basecoin DB Tx Err CS)
    (txBytes : Bytes) (tx : Tx) (res : DispatchResult) (db : DB)
    (hload : d.LoadTx txBytes = Except.ok tx)
    (hres : app.handler.DeliverTx (app.newContext d) app.state.append tx = (Except.ok res, db)) :
    (app.DeliverTx d txBytes).1 = d.ToABCI res ∧
    (app.DeliverTx d txBytes).2.pending = (app.toIAVLApp.addValChange res.Diff).pending ∧
    ∀ (pubkeyA : Bytes) (txBytes2 : Bytes) (tx2 : Tx) (res2 : DispatchResult) (db2 : DB)
      (height : Nat),
      app.pending = [] →
      res.Diff = [{ PubKey := pubkeyA, Power := 5 }] →
      d.LoadTx txBytes2 = Except.ok tx2 →
      (app.DeliverTx d txBytes).2.handler.DeliverTx ((app.DeliverTx d txBytes).2.newContext d)
          (app.DeliverTx d txBytes).2.state.append tx2 = (Except.ok res2, db2) →
      res2.Diff = [{ PubKey := pubkeyA, Power := 9 }] →
      ((((app.DeliverTx d txBytes).2.DeliverTx d txBytes2).2.toIAVLApp).EndBlock height).1.Diffs
        = [{ PubKey := pubkeyA, Power := 9 }] := by
  have h1 := DeliverTx_of_ok d app txBytes tx res db hload hres
  refine ⟨h1.1, ?_, ?_⟩
  · rw [h1.2.1, addValChange_pending]
  · intro pubkeyA txBytes2 tx2 res2 db2 height hempty hdiff hload2 hres2 hdiff2
    have h2 := DeliverTx_of_ok d (app.DeliverTx d txBytes).2 txBytes2 tx2 res2 db2 hload2 hres2
    show ((app.DeliverTx d txBytes).2.DeliverTx d txBytes2).2.pending = _
    rw [h2.2.1, h1.2.1, hempty, hdiff, hdiff2]
    simp only [List.foldl_cons, List.foldl_nil]
    exact addValChangeStep_same_key _ _ rfl

/-- Instance of C7: transactions `[7, 5]` then `[7, 9]` on the fresh application. -/
theorem deliverTx_success_merges_diff_witness :
    (demoDeps.LoadTx [7, 5] = Except.ok [7, 5] ∧
      demoApp.handler.DeliverTx (demoApp.newContext demoDeps) demoApp.state.append [7, 5]
        = (Except.ok { Data := [], Log := [], Diff := [⟨[7], 5⟩] }, 1)) ∧
    ((demoApp.DeliverTx demoDeps [7, 5]).1
        = demoDeps.ToABCI { Data := [], Log := [], Diff := [⟨[7], 5⟩] } ∧
      (demoApp.DeliverTx demoDeps [7, 5]).2.pending
        = (demoApp.toIAVLApp.addValChange [⟨[7], 5⟩]).pending ∧
      ((((demoApp.DeliverTx demoDeps [7, 5]).2.DeliverTx demoDeps [7, 9]).2.toIAVLApp).EndBlock
        1).1.Diffs = [⟨[7], 9⟩]) :=
  ⟨⟨rfl, rfl⟩,
    (deliverTx_success_merges_diff demoDeps demoApp [7, 5] [7, 5]
      { Data := [], Log := [], Diff := [⟨[7], 5⟩] } 1 rfl rfl).1,
    (deliverTx_success_merges_diff demoDeps demoApp [7, 5] [7, 5]
      { Data := [], Log := [], Diff := [⟨[7], 5⟩] } 1 rfl rfl).2.1,
    (deliverTx_success_merges_diff demoDeps demoApp [7, 5] [7, 5]
      { Data := [], Log := [], Diff := [⟨[7], 5⟩] } 1 rfl rfl).2.2 [7] [7, 9] [7, 9]
      { Data := [], Log := [], Diff := [⟨[7], 9⟩] } 2 1 rfl rfl rfl rfl rfl⟩

/-- C8 (`DeliverTx` failure): when decoding fails with `err`, `DeliverTx`
returns `errors.Result(err)`, leaves pending list, height and the three store
views unchanged, and does the same whatever the handler is (the handler is not
called); when the handler returns an error, `DeliverTx` returns that error's
result and leaves pending list and height unchanged. -/
theorem deliverTx_failure_leaves_pending (d : Deps DB Tx Err CS) (app : Basecoin DB Tx Err CS)
    (txBytes : Bytes) :
    (∀ err : Err, d.LoadTx txBytes = Except.error err →
      (app.DeliverTx d txBytes).1 = d.errorsResult err ∧
      (app.DeliverTx d txBytes).2.pending = app.pending ∧
      (app.DeliverTx d txBytes).2.height = app.height ∧
      (app.DeliverTx d txBytes).2.state.committed = app.state.committed ∧
      (app.DeliverTx d txBytes).2.state.append = app.state.append ∧
      (app.DeliverTx d txBytes).2.state.check = app.state.check ∧
      ∀ other : Handler DB Tx Err,
        Basecoin.DeliverTx d { app with handler := other } txBytes
          = (d.errorsResult err, { app with handler := other })) ∧
    (∀ (tx : Tx) (err : Err) (db : DB), d.LoadTx txBytes = Except.ok tx →
      app.handler.DeliverTx (app.newContext d) app.state.append tx = (Except.error err, db) →
      (app.DeliverTx d txBytes).1 = d.errorsResult err ∧
      (app.DeliverTx d txBytes).2.pending = app.pending ∧
      (app.DeliverTx d txBytes).2.height = app.height) := by
  constructor
  · intro err hload
    rw [DeliverTx_of_decode_error d app txBytes err hload]
    refine ⟨rfl, rfl, rfl, rfl, rfl, rfl, ?_⟩
    intro other
    exact DeliverTx_of_decode_error d _ txBytes err hload
  · intro tx err db hload hres
    exact DeliverTx_of_handler_error d app txBytes tx err db hload hres

/-- Instance of C8: the empty transaction does not decode, the transaction `[7]`
is rejected by the handler. -/
theorem deliverTx_failure_leaves_pending_witness :
    (demoDeps.LoadTx [] = Except.error (str "empty tx") ∧
      demoDeps.LoadTx [7] = Except.ok [7] ∧
      demoApp.handler.DeliverTx (demoApp.newContext demoDeps) demoApp.state.append [7]
        = (Except.error (str "bad tx"), 0)) ∧
    ((demoApp.DeliverTx demoDeps []).1 = demoDeps.errorsResult (str "empty tx") ∧
      (demoApp.DeliverTx demoDeps []).2.pending = demoApp.pending) ∧
    ((demoApp.DeliverTx demoDeps [7]).1 = demoDeps.errorsResult (str "bad tx") ∧
      (demoApp.DeliverTx demoDeps [7]).2.pending = demoApp.pending ∧
      (demoApp.DeliverTx demoDeps [7]).2.height = demoApp.height) :=
  ⟨⟨rfl, rfl, rfl⟩,
    ⟨((deliverTx_failure_leaves_pending demoDeps demoApp []).1 (str "empty tx") rfl).1,
     ((deliverTx_failure_leaves_pending demoDeps demoApp []).1 (str "empty tx") rfl).2.1⟩,
    (deliverTx_failure_leaves_pending demoDeps demoApp [7]).2 [7] (str "bad tx") 0 rfl rfl⟩

/-- C9 (`CheckTx` never alters the validator change set): for every state,
decoder, handler and finite sequence of `CheckTx` calls on arbitrary bytes, the
pending list and the height after the sequence equal those before it. -/
theorem checkTx_leaves_pending_and_height (d : Deps DB Tx Err CS)
    (app : Basecoin DB Tx Err CS) (txs : List Bytes) :
    (app.checkAll d txs).pending = app.pending ∧ (app.checkAll d txs).height = app.height := by
  unfold Basecoin.checkAll
  induction txs generalizing app with
  | nil => exact ⟨rfl, rfl⟩
  | cons t rest ih =>
    simp only [List.foldl_cons]
    rw [(ih _).1, (ih _).2]
    exact CheckTx_pending_height d app t

/-- C10 (query guard): for a request with empty `Data`, `Query` answers with
code `EncodingError` and log `"Query cannot be zero length"`, leaves the state
as it is, and gives the same answer for every store and every collaborator; for
a request with non-empty `Data` it returns exactly the store's `Query` response
for that request. -/
theorem query_guards_empty_data (d : Deps DB Tx Err CS) (app : IAVLApp DB CS)
    (reqQuery : RequestQuery) :
    (reqQuery.Data = [] →
      (app.Query d reqQuery).1.Code = CodeType_EncodingError ∧
      (app.Query d reqQuery).1.Log = str "Query cannot be zero length" ∧
      (app.Query d reqQuery).2 = app ∧
      ∀ (d2 : Deps DB Tx Err CS) (app2 : IAVLApp DB CS),
        (app2.Query d2 reqQuery).1 = (app.Query d reqQuery).1) ∧
    (reqQuery.Data ≠ [] →
      (app.Query d reqQuery).1 = (d.storeQuery app.state reqQuery).1) := by
  constructor
  · intro h
    simp [IAVLApp.Query, h]
  · intro h
    have : ¬ (reqQuery.Data.length = 0) := by
      simpa [List.length_eq_zero] using h
    simp [IAVLApp.Query, this]

/-- Instance of C10: a request without data and a request with data `[1, 2]`. -/
theorem query_guards_empty_data_witness :
    ((⟨[], str "/key", 0, false⟩ : RequestQuery).Data = [] ∧
      (⟨[1, 2], str "/key", 0, false⟩ : RequestQuery).Data ≠ []) ∧
    ((demoApp.toIAVLApp.Query demoDeps ⟨[], str "/key", 0, false⟩).1.Code
        = CodeType_EncodingError ∧
      (demoApp.toIAVLApp.Query demoDeps ⟨[], str "/key", 0, false⟩).1.Log
        = str "Query cannot be zero length") ∧
    (demoApp.toIAVLApp.Query demoDeps ⟨[1, 2], str "/key", 0, false⟩).1
      = (demoDeps.storeQuery demoApp.state ⟨[1, 2], str "/key", 0, false⟩).1 :=
  ⟨⟨rfl, by decide⟩,
    ⟨((query_guards_empty_data demoDeps demoApp.toIAVLApp ⟨[], str "/key", 0, false⟩).1 rfl).1,
     ((query_guards_empty_data demoDeps demoApp.toIAVLApp ⟨[], str "/key", 0, false⟩).1 rfl).2.1⟩,
    (query_guards_empty_data demoDeps demoApp.toIAVLApp ⟨[1, 2], str "/key", 0, false⟩).2
      (by decide)⟩

/-! ## Option initialisation -/

theorem splitKey_chain_id : splitKey (str "chain_id") = (ModuleNameBase, ChainKey) := by decide

theorem splitKey_base_chain_id :
    splitKey (str "base/chain_id") = (ModuleNameBase, ChainKey) := by decide

theorem InitState_of_chain_key (d : Deps DB Tx Err CS) (app : Basecoin DB Tx Err CS)
    (key value : GoString) (hkey : splitKey key = (ModuleNameBase, ChainKey)) :
    (app.InitState d key value).1 = str "Success" ∧
      (app.InitState d key value).2.info = (d.SetChainID app.info app.state.append value).1 ∧
      (app.InitState d key value).2.state.append
        = (d.SetChainID app.info app.state.append value).2 ∧
      (app.InitState d key value).2.state.committed = app.state.committed ∧
      (app.InitState d key value).2.state.check = app.state.check ∧
      (app.InitState d key value).2.pending = app.pending ∧
      (app.InitState d key value).2.height = app.height ∧
      (app.InitState d key value).2.handler = app.handler := by
  simp [Basecoin.InitState, hkey]

/-- C11 (`InitState` binds the chain id): for every value `v`, `InitState` with
key `"chain_id"` or `"base/chain_id"` returns `"Success"`, leaves as chain state
and append view what `ChainState.SetChainID` yields for the append view and `v`,
leaves committed view, check view, pending list and height unchanged, and does
the same whatever the handler is (the handler's `InitState` is not called). -/
theorem initState_binds_chain_id (d : Deps DB Tx Err CS) (app : Basecoin DB Tx Err CS)
    (v : GoString) :
    ∀ key : GoString, key = str "chain_id" ∨ key = str "base/chain_id" →
      (app.InitState d key v).1 = str "Success" ∧
      (app.InitState d key v).2.info = (d.SetChainID app.info app.state.append v).1 ∧
      (app.InitState d key v).2.state.append = (d.SetChainID app.info app.state.append v).2 ∧
      (app.InitState d key v).2.state.committed = app.state.committed ∧
      (app.InitState d key v).2.state.check = app.state.check ∧
      (app.InitState d key v).2.pending = app.pending ∧
      (app.InitState d key v).2.height = app.height ∧
      ∀ other : Handler DB Tx Err,
        (Basecoin.InitState d { app with handler := other } key v).1
            = (app.InitState d key v).1 ∧
          (Basecoin.InitState d { app with handler := other } key v).2.toIAVLApp
            = (app.InitState d key v).2.toIAVLApp := by
  intro key hk
  have hkey : splitKey key = (ModuleNameBase, ChainKey) := by
    rcases hk with rfl | rfl
    · exact splitKey_chain_id
    · exact splitKey_base_chain_id
  obtain ⟨h1, h2, h3, h4, h5, h6, h7, _⟩ := InitState_of_chain_key d app key v hkey
  refine ⟨h1, h2, h3, h4, h5, h6, h7, ?_⟩
  intro other
  constructor
  · rw [h1]; exact (InitState_of_chain_key d _ key v hkey).1
  · unfold Basecoin.InitState
    simp only [hkey, if_true]

/-- Instance of C11 at the key `"base/chain_id"` and value `"test-chain"`. -/
theorem initState_binds_chain_id_witness :
    (str "base/chain_id" = str "chain_id" ∨ str "base/chain_id" = str "base/chain_id") ∧
    (chainApp.InitState chainDeps (str "base/chain_id") (str "test-chain")).1 = str "Success" ∧
    (chainApp.InitState chainDeps (str "base/chain_id") (str "test-chain")).2.state.append
      = (chainDeps.SetChainID chainApp.info chainApp.state.append (str "test-chain")).2 :=
  ⟨Or.inr rfl,
    (initState_binds_chain_id chainDeps chainApp (str "test-chain") (str "base/chain_id")
      (Or.inr rfl)).1,
    (initState_binds_chain_id chainDeps chainApp (str "test-chain") (str "base/chain_id")
      (Or.inr rfl)).2.2.1⟩

/-- C12 (unknown base option): when `splitKey` maps the key to module `"base"`
and a sub-key `k` other than `"chain_id"`, `InitState` returns
`"Error: unknown base option: "` followed by `k` and leaves the whole state
unchanged (so chain id, pending list and height), whatever the handler is (the
handler is not called). -/
theorem initState_unknown_base_option (d : Deps DB Tx Err CS) (app : Basecoin DB Tx Err CS)
    (key value k : GoString) (hsplit : splitKey key = (str "base", k))
    (hk : k ≠ str "chain_id") :
    (app.InitState d key value).1 = str "Error: unknown base option: " ++ k ∧
      (app.InitState d key value).2 = app ∧
      ((app.InitState d key value).2.toIAVLApp.GetChainID d).1 = (app.toIAVLApp.GetChainID d).1 ∧
      (app.InitState d key value).2.pending = app.pending ∧
      (app.InitState d key value).2.height = app.height ∧
      ∀ other : Handler DB Tx Err,
        Basecoin.InitState d { app with handler := other } key value
          = (str "Error: unknown base option: " ++ k, { app with handler := other }) := by
  have hgen : ∀ a : Basecoin DB Tx Err CS,
      a.InitState d key value = (str "Error: unknown base option: " ++ k, a) := by
    intro a
    unfold Basecoin.InitState
    have hb : (str "base" : GoString) = ModuleNameBase := rfl
    have hc : ¬ (k = ChainKey) := hk
    simp only [hsplit, hb, if_true, hc, if_false]
  rw [hgen app]
  exact ⟨rfl, rfl, rfl, rfl, rfl, fun other => hgen _⟩

/-- Instance of C12 at the key `"base/foo"`. -/
theorem initState_unknown_base_option_witness :
    (splitKey (str "base/foo") = (str "base", str "foo") ∧ str "foo" ≠ str "chain_id") ∧
    (demoApp.InitState demoDeps (str "base/foo") [1]).1
      = str "Error: unknown base option: " ++ str "foo" ∧
    (demoApp.InitState demoDeps (str "base/foo") [1]).2.pending = demoApp.pending :=
  ⟨⟨by decide, by decide⟩,
    (initState_unknown_base_option demoDeps demoApp (str "base/foo") [1] (str "foo")
      (by decide) (by decide)).1,
    (initState_unknown_base_option demoDeps demoApp (str "base/foo") [1] (str "foo")
      (by decide) (by decide)).2.2.2.1⟩

/-- C13 fails on the error path: for the key `"coin/issuer"` (module `"coin"`)
and a handler whose `InitState` fails with the message `"empty value"`,
`InitState` returns `"Error: empty value"`, not the handler's message
verbatim. -/
theorem initState_error_is_prefixed :
    (splitKey (str "coin/issuer")).1 ≠ str "base" ∧
    demoStrictHandler.InitState demoStore.append (str "coin") (str "issuer") []
      = (Except.error (str "empty value"), 0) ∧
    ((NewBasecoin demoDeps demoStrictHandler demoStore).InitState demoDeps
        (str "coin/issuer") []).1 = str "Error: empty value" ∧
    ((NewBasecoin demoDeps demoStrictHandler demoStore).InitState demoDeps
        (str "coin/issuer") []).1 ≠ demoDeps.errorString (str "empty value") :=
  ⟨by decide, rfl, by decide, by decide⟩

/-- C13 (amended): for every key whose module (by `splitKey`) is not `"base"`,
`InitState` calls the handler's `InitState` with that module, sub-key and value
on the append view; it returns the handler's log verbatim when the handler
succeeds and `"Error: "` followed by the handler's error message when it fails;
the append view is the one the handler leaves, everything else is unchanged. -/
theorem initState_passes_other_modules (d : Deps DB Tx Err CS) (app : Basecoin DB Tx Err CS)
    (key value : GoString) (hmod : (splitKey key).1 ≠ str "base") :
    (∀ (log : GoString) (db : DB),
      app.handler.InitState app.state.append (splitKey key).1 (splitKey key).2 value
        = (Except.ok log, db) →
      (app.InitState d key value).1 = log ∧
      (app.InitState d key value).2.state.append = db) ∧
    (∀ (err : Err) (db : DB),
      app.handler.InitState app.state.append (splitKey key).1 (splitKey key).2 value
        = (Except.error err, db) →
      (app.InitState d key value).1 = str "Error: " ++ d.errorString err ∧
      (app.InitState d key value).2.state.append = db) ∧
    (app.InitState d key value).1
      = (match (app.handler.InitState app.state.append (splitKey key).1 (splitKey key).2
          value).1 with
        | Except.ok log => log
        | Except.error err => str "Error: " ++ d.errorString err) ∧
    (app.InitState d key value).2.state.committed = app.state.committed ∧
    (app.InitState d key value).2.state.check = app.state.check ∧
    (app.InitState d key value).2.info = app.info ∧
    (app.InitState d key value).2.pending = app.pending ∧
    (app.InitState d key value).2.height = app.height := by
  have hb : ¬ ((splitKey key).1 = ModuleNameBase) := hmod
  unfold Basecoin.InitState
  simp only [hb, if_false]
  rcases hh : app.handler.InitState app.state.append (splitKey key).1 (splitKey key).2 value
    with ⟨r, db0⟩
  cases r with
  | error e =>
    refine ⟨?_, ?_, rfl, rfl, rfl, rfl, rfl, rfl⟩
    · intro log db h; cases h
    · intro err db h; cases h; exact ⟨rfl, rfl⟩
  | ok l =>
    refine ⟨?_, ?_, rfl, rfl, rfl, rfl, rfl, rfl⟩
    · intro log db h; cases h; exact ⟨rfl, rfl⟩
    · intro err db h; cases h

/-- Instance of C13 (amended) at the key `"coin/issuer"`: an accepted and a
rejected value. -/
theorem initState_passes_other_modules_witness :
    (splitKey (str "coin/issuer")).1 ≠ str "base" ∧
    ((NewBasecoin demoDeps demoStrictHandler demoStore).InitState demoDeps
        (str "coin/issuer") [7]).1 = [7] ∧
    ((NewBasecoin demoDeps demoStrictHandler demoStore).InitState demoDeps
        (str "coin/issuer") []).1 = str "Error: " ++ demoDeps.errorString (str "empty value") :=
  ⟨by decide,
    ((initState_passes_other_modules demoDeps (NewBasecoin demoDeps demoStrictHandler demoStore)
      (str "coin/issuer") [7] (by decide)).1 [7] 1 rfl).1,
    ((initState_passes_other_modules demoDeps (NewBasecoin demoDeps demoStrictHandler demoStore)
      (str "coin/issuer") [] (by decide)).2.1 (str "empty value") 0 rfl).1⟩

/-! ## Height, commit and info -/

theorem DeliverTx_height (d : Deps DB Tx Err CS) (app : Basecoin DB Tx Err CS)
    (txBytes : Bytes) : (app.DeliverTx d txBytes).2.height = app.height := by
  unfold Basecoin.DeliverTx
  cases hl : d.LoadTx txBytes with
  | error err => rfl
  | ok tx =>
    simp only
    split
    · rfl
    · simp only [addValChange_height]
      rfl

/-- C14 fails for `Info` and at the largest `uint64`: after a `BeginBlock` the
height is 1 and `Info` sets it back to the store's last block height 0; and at
height `2 ^ 64 - 1` a `BeginBlock` wraps the height to 0. -/
theorem height_decreases_on_info_and_wrap :
    (demoApp.toIAVLApp.BeginBlock [] ⟨[], 0⟩).height = 1 ∧
    (IAVLApp.Info demoDeps (demoApp.toIAVLApp.BeginBlock [] ⟨[], 0⟩)).2.height = 0 ∧
    ¬ ((IAVLApp.Info demoDeps (demoApp.toIAVLApp.BeginBlock [] ⟨[], 0⟩)).2.height
        ≥ (demoApp.toIAVLApp.BeginBlock [] ⟨[], 0⟩).height) ∧
    ¬ ((((IAVLApp.Info demoDeps
          (NewIAVLApp demoDeps { committed := 2 ^ 64 - 1, append := 0, check := 0 })).2).BeginBlock
          [] ⟨[], 0⟩).height
        ≥ ((IAVLApp.Info demoDeps
          (NewIAVLApp demoDeps { committed := 2 ^ 64 - 1, append := 0, check := 0 })).2).height) := by
  decide

theorem serve_height (d : Deps DB Tx Err CS) (app app1 : Basecoin DB Tx Err CS) (c : Call)
    (hserve : app.serve d c = Except.ok app1) :
    app1.height =
      (match c with
       | Call.Info => (d.storeInfo app.state).1.LastBlockHeight
       | Call.BeginBlock _ _ => (app.height + 1) % uint64Mod
       | _ => app.height) := by
  cases c with
  | Info => cases hserve; rfl
  | SetOption key value => cases hserve; rfl
  | InitState key value => cases hserve; exact (InitState_pending_height d app key value).2
  | InitChain validators => cases hserve; rfl
  | BeginBlock hash header => cases hserve; rfl
  | DeliverTx txBytes => cases hserve; exact DeliverTx_height d app txBytes
  | CheckTx txBytes => cases hserve; exact (CheckTx_pending_height d app txBytes).2
  | EndBlock height => cases hserve; rfl
  | Commit =>
    simp only [Basecoin.serve] at hserve
    have hc := Commit_pending_height d app.toIAVLApp
    rcases hr : app.toIAVLApp.Commit d with ⟨res, app2⟩
    rw [hr] at hserve hc
    cases res with
    | error msg => cases hserve
    | ok r => cases hserve; exact hc.2
  | Query reqQuery =>
    cases hserve
    exact (Query_pending_height d app.toIAVLApp reqQuery).2

/-- C14 (amended): for every controller state and every single call, the height
after the call is at least the height before, except exactly for an `Info`
whose store reports a `LastBlockHeight` below the current height and for a
`BeginBlock` at a height not below `2 ^ 64 - 1` (for a `uint64`: at
`2 ^ 64 - 1`); every call other than `Info` and `BeginBlock` leaves the height
unchanged at every height, `BeginBlock` below `2 ^ 64 - 1` adds 1, and `Info`
sets the height to the store's `LastBlockHeight` whatever it was before. -/
theorem height_decreases_only_on_info_or_wrap (d : Deps DB Tx Err CS)
    (app : Basecoin DB Tx Err CS) :
    (∀ (c : Call) (app1 : Basecoin DB Tx Err CS), app.serve d c = Except.ok app1 →
      (app1.height ≥ app.height ↔
        (c = Call.Info → (d.storeInfo app.state).1.LastBlockHeight ≥ app.height) ∧
        ((∃ hash header, c = Call.BeginBlock hash header) → app.height < 2 ^ 64 - 1))) ∧
    (∀ (c : Call) (app1 : Basecoin DB Tx Err CS), c ≠ Call.Info →
      (∀ hash header, c ≠ Call.BeginBlock hash header) →
      app.serve d c = Except.ok app1 → app1.height = app.height) ∧
    (∀ hash header, app.height < 2 ^ 64 - 1 →
      (app.toIAVLApp.BeginBlock hash header).height = app.height + 1) ∧
    (app.toIAVLApp.Info d).2.height = (d.storeInfo app.state).1.LastBlockHeight := by
  have hbb : ∀ hash header, app.height < 2 ^ 64 - 1 →
      (app.toIAVLApp.BeginBlock hash header).height = app.height + 1 := by
    intro hash header hlt
    show (app.height + 1) % uint64Mod = app.height + 1
    apply Nat.mod_eq_of_lt
    unfold uint64Mod
    omega
  refine ⟨?_, ?_, hbb, rfl⟩
  · intro c app1 hserve
    have hh := serve_height d app app1 c hserve
    cases c with
    | Info =>
      simp only at hh
      rw [hh]
      constructor
      · intro h
        exact ⟨fun _ => h, fun ⟨_, _, e⟩ => Call.noConfusion e⟩
      · intro h
        exact h.1 rfl
    | BeginBlock hash header =>
      simp only at hh
      rw [hh]
      constructor
      · intro h
        refine ⟨fun e => Call.noConfusion e, fun _ => ?_⟩
        by_contra hge
        have hlt : (app.height + 1) % uint64Mod < uint64Mod :=
          Nat.mod_lt _ (by unfold uint64Mod; omega)
        unfold uint64Mod at hlt h
        by_cases hmax : app.height = 2 ^ 64 - 1
        · rw [hmax] at h
          norm_num at h
        · omega
      · intro h
        have hlt := h.2 ⟨hash, header, rfl⟩
        have : (app.height + 1) % uint64Mod = app.height + 1 := by
          apply Nat.mod_eq_of_lt
          unfold uint64Mod
          omega
        omega
    | SetOption key value =>
      simp only at hh
      exact ⟨fun _ => ⟨fun e => Call.noConfusion e, fun ⟨_, _, e⟩ => Call.noConfusion e⟩,
        fun _ => by omega⟩
    | InitState key value =>
      simp only at hh
      exact ⟨fun _ => ⟨fun e => Call.noConfusion e, fun ⟨_, _, e⟩ => Call.noConfusion e⟩,
        fun _ => by omega⟩
    | InitChain validators =>
      simp only at hh
      exact ⟨fun _ => ⟨fun e => Call.noConfusion e, fun ⟨_, _, e⟩ => Call.noConfusion e⟩,
        fun _ => by omega⟩
    | DeliverTx txBytes =>
      simp only at hh
      exact ⟨fun _ => ⟨fun e => Call.noConfusion e, fun ⟨_, _, e⟩ => Call.noConfusion e⟩,
        fun _ => by omega⟩
    | CheckTx txBytes =>
      simp only at hh
      exact ⟨fun _ => ⟨fun e => Call.noConfusion e, fun ⟨_, _, e⟩ => Call.noConfusion e⟩,
        fun _ => by omega⟩
    | EndBlock height =>
      simp only at hh
      exact ⟨fun _ => ⟨fun e => Call.noConfusion e, fun ⟨_, _, e⟩ => Call.noConfusion e⟩,
        fun _ => by omega⟩
    | Commit =>
      simp only at hh
      exact ⟨fun _ => ⟨fun e => Call.noConfusion e, fun ⟨_, _, e⟩ => Call.noConfusion e⟩,
        fun _ => by omega⟩
    | Query reqQuery =>
      simp only at hh
      exact ⟨fun _ => ⟨fun e => Call.noConfusion e, fun ⟨_, _, e⟩ => Call.noConfusion e⟩,
        fun _ => by omega⟩
  · intro c app1 hinfo hbegin hserve
    have hh := serve_height d app app1 c hserve
    cases c with
    | Info => exact absurd rfl hinfo
    | BeginBlock hash header => exact absurd rfl (hbegin hash header)
    | SetOption key value => exact hh
    | InitState key value => exact hh
    | InitChain validators => exact hh
    | DeliverTx txBytes => exact hh
    | CheckTx txBytes => exact hh
    | EndBlock height => exact hh
    | Commit => exact hh
    | Query reqQuery => exact hh

/-- Instance of C14 (amended): `BeginBlock` on the fresh application raises the
height, and a `CheckTx` at height `2 ^ 64 - 1` leaves it unchanged. -/
theorem height_decreases_only_on_info_or_wrap_witness :
    (demoApp.serve demoDeps (Call.BeginBlock [] ⟨[], 0⟩)
        = Except.ok ⟨⟨[], ⟨0, 0, 0⟩, [], 1⟩, demoHandler⟩ ∧
      demoApp.height < 2 ^ 64 - 1 ∧
      Basecoin.serve demoDeps ⟨⟨[], ⟨0, 0, 0⟩, [], 2 ^ 64 - 1⟩, demoHandler⟩ (Call.CheckTx [2, 3])
        = Except.ok ⟨⟨[], ⟨0, 0, 1⟩, [], 2 ^ 64 - 1⟩, demoHandler⟩) ∧
    (⟨⟨[], ⟨0, 0, 0⟩, [], 1⟩, demoHandler⟩ : Basecoin Nat Bytes GoString GoString).height
      ≥ demoApp.height ∧
    (⟨⟨[], ⟨0, 0, 1⟩, [], 2 ^ 64 - 1⟩, demoHandler⟩ : Basecoin Nat Bytes GoString GoString).height
      = (⟨⟨[], ⟨0, 0, 0⟩, [], 2 ^ 64 - 1⟩, demoHandler⟩ :
          Basecoin Nat Bytes GoString GoString).height :=
  ⟨⟨rfl, by decide, rfl⟩,
    ((height_decreases_only_on_info_or_wrap demoDeps demoApp).1 (Call.BeginBlock [] ⟨[], 0⟩)
      ⟨⟨[], ⟨0, 0, 0⟩, [], 1⟩, demoHandler⟩ rfl).mpr
      ⟨fun e => Call.noConfusion e, fun _ => by decide⟩,
    (height_decreases_only_on_info_or_wrap demoDeps
      ⟨⟨[], ⟨0, 0, 0⟩, [], 2 ^ 64 - 1⟩, demoHandler⟩).2.1 (Call.CheckTx [2, 3])
      ⟨⟨[], ⟨0, 0, 1⟩, [], 2 ^ 64 - 1⟩, demoHandler⟩ (fun e => Call.noConfusion e)
      (fun _ _ e => Call.noConfusion e) rfl⟩

/-- C15 (`Commit` fails fatally exactly on store failure): `Commit` returns the
store's commit result unchanged when that result is not an error, it panics if
and only if the result is an error, and in both cases height and pending list
are as before. -/
theorem commit_panics_iff_store_error (d : Deps DB Tx Err CS) (app : IAVLApp DB CS) :
    ((d.storeCommit app.state).1.IsErr = false →
      (app.Commit d).1 = Except.ok (d.storeCommit app.state).1) ∧
    ((∃ msg, (app.Commit d).1 = Except.error msg) ↔ (d.storeCommit app.state).1.IsErr = true) ∧
    (app.Commit d).2.height = app.height ∧
    (app.Commit d).2.pending = app.pending := by
  refine ⟨?_, ?_, (Commit_pending_height d app).2, (Commit_pending_height d app).1⟩
  · intro h
    simp [IAVLApp.Commit, h]
  · constructor
    · rintro ⟨msg, hmsg⟩
      by_contra hne
      have hf : (d.storeCommit app.state).1.IsErr = false := by simpa using hne
      simp [IAVLApp.Commit, hf] at hmsg
    · intro h
      exact ⟨str "Error getting hash: " ++ d.resultError (d.storeCommit app.state).1, by
        simp [IAVLApp.Commit, h]⟩

/-- Instance of C15: a store whose commit succeeds and one whose commit fails. -/
theorem commit_panics_iff_store_error_witness :
    ((demoDeps.storeCommit demoApp.state).1.IsErr = false ∧
      (demoFailingDeps.storeCommit demoApp.state).1.IsErr = true) ∧
    (demoApp.toIAVLApp.Commit demoDeps).1 = Except.ok (demoDeps.storeCommit demoApp.state).1 ∧
    (∃ msg, (demoApp.toIAVLApp.Commit demoFailingDeps).1 = Except.error msg) :=
  ⟨⟨by decide, by decide⟩,
    (commit_panics_iff_store_error demoDeps demoApp.toIAVLApp).1 (by decide),
    (commit_panics_iff_store_error demoFailingDeps demoApp.toIAVLApp).2.1.mpr (by decide)⟩

/-- C18 (`Info` reports the store's snapshot): `Info` returns the
`LastBlockHeight` and `LastBlockAppHash` of the store's `Info` response, sets
the height to that `LastBlockHeight`, and leaves pending list and chain state
unchanged. -/
theorem info_reports_store_snapshot (d : Deps DB Tx Err CS) (app : IAVLApp DB CS) :
    (app.Info d).1.LastBlockHeight = (d.storeInfo app.state).1.LastBlockHeight ∧
    (app.Info d).1.LastBlockAppHash = (d.storeInfo app.state).1.LastBlockAppHash ∧
    (app.Info d).2.height = (d.storeInfo app.state).1.LastBlockHeight ∧
    (app.Info d).2.pending = app.pending ∧
    (app.Info d).2.info = app.info :=
  ⟨rfl, rfl, rfl, rfl, rfl⟩

/-! ## Draining an untouched set -/

theorem DeliverTx_pending_of_mergesNothing (d : Deps DB Tx Err CS)
    (app : Basecoin DB Tx Err CS) (txBytes : Bytes)
    (h : app.mergesNothing d (Call.DeliverTx txBytes) = true) :
    (app.DeliverTx d txBytes).2.pending = app.pending := by
  unfold Basecoin.mergesNothing at h
  unfold Basecoin.DeliverTx
  cases hl : d.LoadTx txBytes with
  | error err => rfl
  | ok tx =>
    simp only [hl] at h ⊢
    rcases hh : app.handler.DeliverTx (app.newContext d) app.state.append tx with ⟨r, db⟩
    rw [hh] at h
    cases r with
    | error err => rfl
    | ok res =>
      have hd : res.Diff = [] := by simpa [List.isEmpty_iff] using h
      simp only [addValChange_pending, hd, List.foldl_nil]
      rfl

theorem serve_pending_of_mergesNothing (d : Deps DB Tx Err CS)
    (app app1 : Basecoin DB Tx Err CS) (c : Call)
    (hq : app.mergesNothing d c = true) (hp : app.pending = [])
    (h : app.serve d c = Except.ok app1) : app1.pending = [] := by
  cases c with
  | Info => cases h; exact hp
  | SetOption key value => cases h; exact hp
  | InitState key value =>
    cases h; rw [(InitState_pending_height d app key value).1]; exact hp
  | InitChain validators => cases h; exact hp
  | BeginBlock hash header => cases h; exact hp
  | DeliverTx txBytes =>
    cases h; rw [DeliverTx_pending_of_mergesNothing d app txBytes hq]; exact hp
  | CheckTx txBytes =>
    cases h; rw [(CheckTx_pending_height d app txBytes).1]; exact hp
  | EndBlock height => cases h; rfl
  | Commit =>
    simp only [Basecoin.serve] at h
    have hc := Commit_pending_height d app.toIAVLApp
    rcases hr : app.toIAVLApp.Commit d with ⟨res, app2⟩
    rw [hr] at h hc
    cases res with
    | error msg => cases h
    | ok r =>
      cases h
      show app2.pending = []
      rw [hc.1]; exact hp
  | Query reqQuery =>
    cases h
    show (app.toIAVLApp.Query d reqQuery).2.pending = []
    rw [(Query_pending_height d app.toIAVLApp reqQuery).1]; exact hp

theorem serveAll_pending_of_noMerge (d : Deps DB Tx Err CS) (calls : List Call)
    (app app1 : Basecoin DB Tx Err CS)
    (hq : Basecoin.noMerge d app calls = true) (hp : app.pending = [])
    (h : Basecoin.serveAll d app calls = Except.ok app1) : app1.pending = [] := by
  induction calls generalizing app with
  | nil => simp only [Basecoin.serveAll] at h; cases h; exact hp
  | cons c cs ih =>
    simp only [Basecoin.serveAll] at h
    simp only [Basecoin.noMerge, Bool.and_eq_true] at hq
    cases hs : app.serve d c with
    | error msg => rw [hs] at h; cases h
    | ok app2 =>
      rw [hs] at h hq
      exact ih app2 hq.2 (serve_pending_of_mergesNothing d app app2 c hq.1 hp hs) h

/-- C16 (an untouched set drains empty): for every state and every sequence of
calls that starts with `EndBlock`, continues with calls none of which reaches a
merge, and is served without panic, a final `EndBlock` is served too and
returns an empty validator diff list. -/
theorem untouched_set_drains_empty (d : Deps DB Tx Err CS) (app app1 : Basecoin DB Tx Err CS)
    (height1 height2 : Nat) (calls : List Call)
    (hquiet : Basecoin.noMerge d { app with toIAVLApp := (app.toIAVLApp.EndBlock height1).2 }
      calls = true)
    (hserve : Basecoin.serveAll d app (Call.EndBlock height1 :: calls) = Except.ok app1) :
    (app1.toIAVLApp.EndBlock height2).1.Diffs = [] ∧
    Basecoin.serveAll d app (Call.EndBlock height1 :: calls ++ [Call.EndBlock height2])
      = Except.ok { app1 with toIAVLApp := (app1.toIAVLApp.EndBlock height2).2 } := by
  have hs : Basecoin.serveAll d { app with toIAVLApp := (app.toIAVLApp.EndBlock height1).2 }
      calls = Except.ok app1 := by
    simpa [Basecoin.serveAll, Basecoin.serve] using hserve
  refine ⟨serveAll_pending_of_noMerge d calls _ app1 hquiet rfl hs, ?_⟩
  have happ : ∀ (cs : List Call) (a a1 : Basecoin DB Tx Err CS) (c : Call),
      Basecoin.serveAll d a cs = Except.ok a1 →
      Basecoin.serveAll d a (cs ++ [c]) = Basecoin.serveAll d a1 [c] := by
    intro cs
    induction cs with
    | nil => intro a a1 c h; simp only [Basecoin.serveAll] at h; cases h; rfl
    | cons x xs ih =>
      intro a a1 c h
      simp only [Basecoin.serveAll, List.cons_append] at h ⊢
      cases hx : a.serve d x with
      | error msg => rw [hx] at h; cases h
      | ok a2 => rw [hx] at h; simp only []; exact ih a2 a1 c h
  rw [happ _ app app1 _ hserve]
  rfl

/-- Instance of C16: after a merge, an `EndBlock` followed by requests that merge
nothing, among them a rejected and an undecodable transaction. -/
theorem untouched_set_drains_empty_witness :
    (Basecoin.noMerge demoDeps
        { ((demoApp.DeliverTx demoDeps [1, 5]).2) with
          toIAVLApp := ((demoApp.DeliverTx demoDeps [1, 5]).2.toIAVLApp.EndBlock 1).2 }
        [Call.Commit, Call.Info, Call.BeginBlock [] ⟨[], 0⟩, Call.CheckTx [2, 3],
          Call.DeliverTx [9], Call.DeliverTx [], Call.Query ⟨[1], [], 0, false⟩] = true ∧
      Basecoin.serveAll demoDeps (demoApp.DeliverTx demoDeps [1, 5]).2
        (Call.EndBlock 1 :: [Call.Commit, Call.Info, Call.BeginBlock [] ⟨[], 0⟩,
          Call.CheckTx [2, 3], Call.DeliverTx [9], Call.DeliverTx [],
          Call.Query ⟨[1], [], 0, false⟩])
        = Except.ok ⟨⟨[], ⟨1, 1, 2⟩, [], 2⟩, demoHandler⟩) ∧
    ((⟨⟨[], ⟨1, 1, 2⟩, [], 2⟩, demoHandler⟩ :
      Basecoin Nat Bytes GoString GoString).toIAVLApp.EndBlock 2).1.Diffs = [] :=
  ⟨⟨by decide, rfl⟩,
    (untouched_set_drains_empty demoDeps (demoApp.DeliverTx demoDeps [1, 5]).2
      ⟨⟨[], ⟨1, 1, 2⟩, [], 2⟩, demoHandler⟩ 1 2
      [Call.Commit, Call.Info, Call.BeginBlock [] ⟨[], 0⟩, Call.CheckTx [2, 3],
        Call.DeliverTx [9], Call.DeliverTx [], Call.Query ⟨[1], [], 0, false⟩]
      (by decide) rfl).1⟩

/-! ## Chain identity, and the order of merged keys -/

theorem GetChainID_depends_on_committed (d : Deps DB Tx Err CS) (app1 app2 : IAVLApp DB CS)
    (hinfo : app1.info = app2.info) (hview : app1.state.committed = app2.state.committed) :
    (app1.GetChainID d).1 = (app2.GetChainID d).1 := by
  unfold IAVLApp.GetChainID
  simp only [hinfo, hview]

/-- C17 fails right after binding: the committed view holds `"old"` and
`GetChainID` answers `"old"`; `InitState` with key `"chain_id"` and value
`"test-chain"` leaves the committed view as it is, yet `GetChainID` then
answers `"test-chain"`, before any `Commit`. -/
theorem getChainID_changes_after_initState :
    (chainApp.toIAVLApp.GetChainID chainDeps).1 = str "old" ∧
    (chainApp.InitState chainDeps (str "chain_id") (str "test-chain")).2.state.committed
      = chainApp.state.committed ∧
    ((chainApp.InitState chainDeps (str "chain_id") (str "test-chain")).2.toIAVLApp.GetChainID
      chainDeps).1 = str "test-chain" ∧
    ((chainApp.InitState chainDeps (str "chain_id") (str "test-chain")).2.toIAVLApp.GetChainID
      chainDeps).1 ≠ (chainApp.toIAVLApp.GetChainID chainDeps).1 := by
  decide

/-- C17 (amended), for the chain-state helper as the spec describes it:
`GetChainID` answers with the helper's bound id when there is one and with the
committed view's id otherwise, so two states with the same helper state and
equal committed views give the same chain id whatever the other views hold,
and a second call gives the same value as the first; `InitState` with key
`"chain_id"` and value `v` writes `v` to the append view and leaves the
committed view alone, and `GetChainID` afterwards answers `v` when `v` is not
empty and the committed view's id when it is. -/
theorem getChainID_reads_helper_then_committed_view (d : Deps DB Tx Err GoString)
    (read : DB → GoString) (write : DB → GoString → DB)
    (hget : d.GetChainID = cachingGetChainID read)
    (hset : d.SetChainID = cachingSetChainID write) :
    (∀ app : IAVLApp DB GoString,
      (app.GetChainID d).1 = if app.info ≠ [] then app.info else read app.state.committed) ∧
    (∀ app1 app2 : IAVLApp DB GoString, app1.info = app2.info →
      app1.state.committed = app2.state.committed →
      (app1.GetChainID d).1 = (app2.GetChainID d).1) ∧
    (∀ app : IAVLApp DB GoString,
      ((app.GetChainID d).2.GetChainID d).1 = (app.GetChainID d).1) ∧
    (∀ (app : Basecoin DB Tx Err GoString) (v : GoString),
      (app.InitState d (str "chain_id") v).2.state.append = write app.state.append v ∧
      (app.InitState d (str "chain_id") v).2.state.committed = app.state.committed ∧
      ((app.InitState d (str "chain_id") v).2.toIAVLApp.GetChainID d).1
        = if v ≠ [] then v else read app.state.committed) := by
  have hval : ∀ app : IAVLApp DB GoString,
      (app.GetChainID d).1 = if app.info ≠ [] then app.info else read app.state.committed := by
    intro app
    unfold IAVLApp.GetChainID
    simp only [hget, cachingGetChainID]
    split_ifs <;> rfl
  have hinfo : ∀ app : IAVLApp DB GoString,
      (app.GetChainID d).2.info = (app.GetChainID d).1 ∧
      (app.GetChainID d).2.state = app.state := by
    intro app
    unfold IAVLApp.GetChainID
    simp only [hget, cachingGetChainID]
    split_ifs <;> simp
  refine ⟨hval, ?_, ?_, ?_⟩
  · intro app1 app2 h1 h2
    exact GetChainID_depends_on_committed d app1 app2 h1 h2
  · intro app
    rw [hval (app.GetChainID d).2, (hinfo app).1, (hinfo app).2, hval app]
    by_cases hi : app.info = []
    · simp only [hi, ne_eq, not_true_eq_false, if_false]
      split_ifs <;> rfl
    · simp only [ne_eq, hi, not_false_eq_true, if_true]
  · intro app v
    obtain ⟨_, h2, h3, h4, _⟩ := InitState_of_chain_key d app (str "chain_id") v splitKey_chain_id
    refine ⟨?_, h4, ?_⟩
    · rw [h3, hset]; rfl
    · rw [hval, h2, h4, hset]
      rfl

/-- Instance of C17 (amended): chain id `"old"` committed, `"test-chain"` bound
by `InitState`. -/
theorem getChainID_reads_helper_then_committed_view_witness :
    (chainDeps.GetChainID = cachingGetChainID (fun db => db) ∧
      chainDeps.SetChainID = cachingSetChainID (fun _ v => v)) ∧
    (chainApp.toIAVLApp.GetChainID chainDeps).1
      = (if chainApp.info ≠ [] then chainApp.info else chainApp.state.committed) ∧
    (chainApp.InitState chainDeps (str "chain_id") (str "test-chain")).2.state.append
      = str "test-chain" ∧
    ((chainApp.InitState chainDeps (str "chain_id") (str "test-chain")).2.toIAVLApp.GetChainID
        chainDeps).1
      = (if str "test-chain" ≠ [] then str "test-chain" else chainApp.state.committed) :=
  ⟨⟨rfl, rfl⟩,
    (getChainID_reads_helper_then_committed_view chainDeps (fun db => db) (fun _ v => v)
      rfl rfl).1 chainApp.toIAVLApp,
    ((getChainID_reads_helper_then_committed_view chainDeps (fun db => db) (fun _ v => v)
      rfl rfl).2.2.2 chainApp (str "test-chain")).1,
    ((getChainID_reads_helper_then_committed_view chainDeps (fun db => db) (fun _ v => v)
      rfl rfl).2.2.2 chainApp (str "test-chain")).2.2⟩

theorem firstOccurrences_filter (q : Bytes → Bool) (l : List Bytes) :
    firstOccurrences (l.filter q) = (firstOccurrences l).filter q := by
  induction l with
  | nil => rfl
  | cons k rest ih =>
    by_cases hq : q k = true
    · simp only [List.filter_cons, hq, if_true, firstOccurrences, ih, List.filter_filter]
      congr 1
      apply List.filter_congr
      intro x _
      exact Bool.and_comm _ _
    · have hq2 : q k = false := by simpa using hq
      simp only [List.filter_cons, hq2, Bool.false_eq_true, if_false, firstOccurrences, ih,
        List.filter_filter]
      apply List.filter_congr
      intro x _
      by_cases hx : x = k
      · subst hx; simp [hq2]
      · simp [hx]

theorem mem_firstOccurrences (k : Bytes) (l : List Bytes) :
    k ∈ firstOccurrences l ↔ k ∈ l := by
  induction l with
  | nil => simp [firstOccurrences]
  | cons j rest ih =>
    simp only [firstOccurrences, List.mem_cons, List.mem_filter, ih, decide_eq_true_eq]
    by_cases h : k = j
    · simp [h]
    · simp [h]

theorem nodup_firstOccurrences (l : List Bytes) : (firstOccurrences l).Nodup := by
  induction l with
  | nil => exact List.nodup_nil
  | cons j rest ih =>
    simp only [firstOccurrences, List.nodup_cons, List.mem_filter, decide_eq_true_eq]
    exact ⟨fun h => h.2 rfl, ih.filter _⟩

theorem length_firstOccurrences (l : List Bytes) :
    (firstOccurrences l).length = l.toFinset.card := by
  rw [← List.toFinset_card_of_nodup (nodup_firstOccurrences l)]
  congr 1
  ext k
  simp [mem_firstOccurrences]

theorem pubKeys_foldl (diffs p : List Validator) :
    pubKeys (diffs.foldl addValChangeStep p) =
      pubKeys p ++
        firstOccurrences ((pubKeys diffs).filter (fun k => decide (k ∉ pubKeys p))) := by
  induction diffs generalizing p with
  | nil => simp [pubKeys, firstOccurrences]
  | cons x rest ih =>
    simp only [List.foldl_cons, addValChangeStep_eq_upsert]
    rw [ih, pubKeys_upsert]
    have hk : pubKeys (x :: rest) = x.PubKey :: pubKeys rest := rfl
    by_cases hx : x.PubKey ∈ pubKeys p
    · simp only [hx, if_true, hk, List.filter_cons, not_true_eq_false, decide_False,
        Bool.false_eq_true, if_false]
    · simp only [hx, if_false, hk, List.filter_cons, not_false_eq_true, decide_True, if_true,
        firstOccurrences, List.append_assoc, List.singleton_append]
      congr 2
      rw [← firstOccurrences_filter]
      congr 1
      rw [List.filter_filter]
      apply List.filter_congr
      intro k _
      simp only [List.mem_append, List.mem_singleton, not_or, Bool.decide_and, ne_eq]
      exact Bool.and_comm _ _

/-- C19 (insertion order is preserved): for a pending list with pairwise
distinct keys and any batch, the keys after `addValChange` are the keys before,
followed by the first occurrences of the batch's keys that do not occur in the
pending list; so the old keys stay an initial segment, the length grows by the
number of distinct new keys, and the keys stay pairwise distinct. -/
theorem addValChange_keeps_insertion_order (app : IAVLApp DB CS) (diffs : List Validator)
    (hdistinct : (pubKeys app.pending).Nodup) :
    pubKeys (app.addValChange diffs).pending =
      pubKeys app.pending ++
        firstOccurrences ((pubKeys diffs).filter (fun k => decide (k ∉ pubKeys app.pending))) ∧
    (pubKeys (app.addValChange diffs).pending).take app.pending.length = pubKeys app.pending ∧
    (app.addValChange diffs).pending.length =
      app.pending.length +
        ((pubKeys diffs).filter (fun k => decide (k ∉ pubKeys app.pending))).toFinset.card ∧
    (pubKeys (app.addValChange diffs).pending).Nodup := by
  have hkeys := pubKeys_foldl diffs app.pending
  rw [← addValChange_pending] at hkeys
  refine ⟨hkeys, ?_, ?_, ?_⟩
  · rw [hkeys]
    have hl : app.pending.length = (pubKeys app.pending).length := by simp [pubKeys]
    rw [hl, List.take_left']
    rfl
  · have hlen := congrArg List.length hkeys
    simp only [pubKeys, List.length_map, List.length_append] at hlen
    rw [hlen, length_firstOccurrences]
    rfl
  · rw [addValChange_pending]
    exact nodup_pubKeys_foldl diffs _ hdistinct

/-- Instance of C19: pending keys `[1], [2]`, batch keys `[4], [2], [3], [4]`. -/
theorem addValChange_keeps_insertion_order_witness :
    (pubKeys (demoApp.toIAVLApp.addValChange [⟨[1], 5⟩, ⟨[2], 3⟩]).pending).Nodup ∧
    pubKeys ((demoApp.toIAVLApp.addValChange [⟨[1], 5⟩, ⟨[2], 3⟩]).addValChange
        [⟨[4], 1⟩, ⟨[2], 8⟩, ⟨[3], 1⟩, ⟨[4], 2⟩]).pending =
      pubKeys (demoApp.toIAVLApp.addValChange [⟨[1], 5⟩, ⟨[2], 3⟩]).pending ++
        firstOccurrences ((pubKeys [⟨[4], 1⟩, ⟨[2], 8⟩, ⟨[3], 1⟩, ⟨[4], 2⟩]).filter
          (fun k => decide (k ∉ pubKeys
            (demoApp.toIAVLApp.addValChange [⟨[1], 5⟩, ⟨[2], 3⟩]).pending))) :=
  ⟨by decide,
    (addValChange_keeps_insertion_order (demoApp.toIAVLApp.addValChange [⟨[1], 5⟩, ⟨[2], 3⟩])
      [⟨[4], 1⟩, ⟨[2], 8⟩, ⟨[3], 1⟩, ⟨[4], 2⟩] (by decide)).1⟩

/-! ## Idempotence of merging -/

theorem upsert_upsert_same_key (x y : Validator) (q : List Validator)
    (h : x.PubKey = y.PubKey) : upsert y (upsert x q) = upsert y q := by
  induction q with
  | nil => simp [upsert, h]
  | cons v rest ih =>
    by_cases hv : x.PubKey = v.PubKey
    · have hy : y.PubKey = v.PubKey := h ▸ hv
      simp [upsert, hv, hy, h]
    · have hy : ¬ (y.PubKey = v.PubKey) := fun e => hv (h.trans e)
      simp [upsert, hv, hy, ih]

theorem upsert_comm_of_mem (x y : Validator) (q : List Validator)
    (hne : x.PubKey ≠ y.PubKey) (hy : y.PubKey ∈ pubKeys q) :
    upsert y (upsert x q) = upsert x (upsert y q) := by
  induction q with
  | nil => simp [pubKeys] at hy
  | cons v rest ih =>
    by_cases hyv : y.PubKey = v.PubKey
    · have hxv : ¬ (x.PubKey = v.PubKey) := fun e => hne (e.trans hyv.symm)
      simp [upsert, hyv, hxv, hne]
    · have hy2 : y.PubKey ∈ pubKeys rest := by
        simp only [pubKeys, List.map_cons, List.mem_cons] at hy
        rcases hy with e | e
        · exact absurd e hyv
        · exact e
      by_cases hxv : x.PubKey = v.PubKey
      · have hyx : ¬ (y.PubKey = x.PubKey) := fun e => hne e.symm
        simp [upsert, hyv, hxv, hyx]
      · simp [upsert, hyv, hxv, ih hy2]

theorem pubKeys_subset_upsert (x : Validator) (q : List Validator) (k : Bytes)
    (hk : k ∈ pubKeys q) : k ∈ pubKeys (upsert x q) := by
  rw [pubKeys_upsert]
  split_ifs
  · exact hk
  · exact List.mem_append_left _ hk

theorem pubKey_mem_upsert (x : Validator) (q : List Validator) :
    x.PubKey ∈ pubKeys (upsert x q) := by
  rw [pubKeys_upsert]
  split_ifs with h
  · exact h
  · simp

theorem pubKeys_subset_foldl (diffs q : List Validator) (k : Bytes) (hk : k ∈ pubKeys q) :
    k ∈ pubKeys (diffs.foldl addValChangeStep q) := by
  induction diffs generalizing q with
  | nil => exact hk
  | cons x rest ih =>
    simp only [List.foldl_cons, addValChangeStep_eq_upsert]
    exact ih _ (pubKeys_subset_upsert x q k hk)

theorem pubKey_mem_foldl (diffs q : List Validator) (y : Validator) (hy : y ∈ diffs) :
    y.PubKey ∈ pubKeys (diffs.foldl addValChangeStep q) := by
  induction diffs generalizing q with
  | nil => simp at hy
  | cons x rest ih =>
    simp only [List.foldl_cons, addValChangeStep_eq_upsert]
    rcases List.mem_cons.mp hy with rfl | h
    · exact pubKeys_subset_foldl rest _ _ (pubKey_mem_upsert y q)
    · exact ih _ h

theorem upsert_foldl_absorb (diffs r : List Validator) (x : Validator)
    (hsub : ∀ y ∈ diffs, y.PubKey ∈ pubKeys r) :
    upsert x (diffs.foldl addValChangeStep (upsert x r))
      = upsert x (diffs.foldl addValChangeStep r) := by
  induction diffs generalizing r with
  | nil => simpa using upsert_upsert_same_key x x r rfl
  | cons y rest ih =>
    simp only [List.foldl_cons, addValChangeStep_eq_upsert]
    have hy : y.PubKey ∈ pubKeys r := hsub y (List.mem_cons_self _ _)
    by_cases hxy : x.PubKey = y.PubKey
    · rw [upsert_upsert_same_key x y r hxy]
    · rw [upsert_comm_of_mem x y r hxy hy]
      apply ih
      intro z hz
      exact pubKeys_subset_upsert y r _ (hsub z (List.mem_cons_of_mem _ hz))

theorem foldl_addValChangeStep_idempotent (diffs p : List Validator) :
    diffs.foldl addValChangeStep (diffs.foldl addValChangeStep p)
      = diffs.foldl addValChangeStep p := by
  induction diffs using List.reverseRecOn with
  | nil => rfl
  | append_singleton ds x ih =>
    simp only [List.foldl_append, List.foldl_cons, List.foldl_nil, addValChangeStep_eq_upsert]
    rw [upsert_foldl_absorb ds _ x (fun y hy => pubKey_mem_foldl ds p y hy), ih]

theorem addValChange_eq (app : IAVLApp DB CS) (diffs : List Validator) :
    app.addValChange diffs = { app with pending := diffs.foldl addValChangeStep app.pending } := by
  unfold IAVLApp.addValChange
  induction diffs generalizing app with
  | nil => rfl
  | cons d rest ih => simp only [List.foldl_cons]; rw [ih]

/-- C20 (merging is idempotent): for every pending list, with or without
duplicate keys, and every batch, `addValChange` applied twice with the same
batch leaves the same state (same entries, same order) as applied once. -/
theorem addValChange_idempotent (app : IAVLApp DB CS) (diffs : List Validator) :
    (app.addValChange diffs).addValChange diffs = app.addValChange diffs := by
  rw [addValChange_eq (app.addValChange diffs) diffs, addValChange_eq app diffs]
  simp only [foldl_addValChangeStep_idempotent]

end App
